import Mathlib

/-!
Verification development for the `find-broken-links` crawler.

The development shallowly embeds the two source files of the repository:

* `src/main.rs` — the crawl engine `crawl_and_collect_404s` together with its
  helpers `make_absolute_url` and `find_links`, and the supervisor loop of
  `main`.  External collaborators (HTTP fetching via `reqwest`, HTML parsing
  via the `select` crate, URL joining via the `url` crate) are modelled as an
  oracle `World`: `World.fetch` returns, for a URL, either the list of raw
  `href` strings its page's `<a>` tags carry (success), a 404 outcome, or any
  other failure; `World.join` models `Url::join`.  The run of the engine is
  recorded as a chronological list of `Event`s so that ordering properties
  (visited-set discipline, sentinel finality) are statable.
* `src/debug_channel.rs` — the instrumented channel's statistics.  Each
  in-flight `DebugSender::send` is a small program over the two shared atomics
  (`counter`, `max_size`); an interleaving small-step relation `ChanStep`
  captures exactly the atomic operations the Rust code performs
  (`fetch_add`, the load/compare-exchange loop, `fetch_sub`).
-/

/-- Model of `url::Url` as the crawler observes it: its serialization
(`Url::to_string`) and its optional domain (`Url::domain`, which is `None`
for e.g. IP-address hosts). -/
structure Url where
  str : String
  dom : Option String
deriving DecidableEq

/-- Outcome of `fetch_html` combined with the `select`-crate extraction of the
raw `href` attributes of `<a>` nodes: success carries the extracted raw href
strings, the other constructors are a 404 response and any other
network/HTTP failure (which `fetch_html` surfaces as an error). -/
inductive FetchResult where
  | ok (hrefs : List String)
  | notFound
  | otherError
deriving DecidableEq

/-- Messages on the channel: `main` uses `Option<String>` where
`Some(url)` reports a 404 URL and `None` is the completion sentinel. -/
inductive ChanMsg where
  | found (url : String)
  | done
deriving DecidableEq

/-- Observable events of one crawl run, in chronological order. -/
inductive Event where
  | fetch (url : String)
  | resolve (base : Url) (link : String)
  | pushFrontier (url : String)
  | addVisited (url : String)
  | send (m : ChanMsg)
  | logSendError (m : ChanMsg)
deriving DecidableEq

/-- External collaborators of the crawl engine: the network/HTML oracle,
the `url`-crate join operation, and whether a given channel send fails
(the receiver may have been dropped). -/
structure World where
  fetch : String → FetchResult
  join : Url → String → Except Unit Url
  sendFails : ChanMsg → Bool

/-- Model of Rust `str::starts_with` on the character level. -/
def strStartsWith (p s : String) : Bool :=
  p.data.isPrefixOf s.data

/-- Model of Rust `str::contains` (substring containment) on the character
level. -/
def containsSubstr (s sub : String) : Bool :=
  (List.range (s.data.length + 1)).any (fun i => sub.data.isPrefixOf (s.data.drop i))

/-- The denied protocols of `find_links` (`src/main.rs:132`). -/
def deniedProtocols : List String := ["mailto:", "ftp:", "tel:"]

/-- The denied placeholder links of `find_links` (`src/main.rs:133`). -/
def deniedLinks : List String := ["#", "javascript:void(0)"]

/-- A raw href is denied when it starts with a denied protocol or equals a
denied placeholder; `find_links` keeps exactly the non-denied hrefs. -/
def isDeniedLink (link : String) : Bool :=
  deniedProtocols.any (fun protocol => strStartsWith protocol link) ||
    deniedLinks.any (fun denied => link == denied)

/-- Embedding of `find_links` (`src/main.rs:129-150`) from the list of raw
href strings onward (the HTML-document iteration itself is the external
`select` collaborator): keep an href unless it starts with a denied protocol
or equals a denied placeholder. -/
def find_links (hrefs : List String) : List String :=
  hrefs.filter (fun link =>
    !(deniedProtocols.any (fun protocol => strStartsWith protocol link)) &&
      !(deniedLinks.any (fun denied => link == denied)))

/-- Embedding of `make_absolute_url` (`src/main.rs:108-111`): resolve `link`
against `base_url` via the `url`-crate join collaborator. -/
def make_absolute_url (w : World) (base_url : Url) (link : String) : Except Unit Url :=
  w.join base_url link

/-- The scope decision of `crawl_and_collect_404s` (`src/main.rs:184-192`):
`matches_exact || matches_fuzzy`, where `matches_exact` compares the resolved
domain with the root domain and `matches_fuzzy` is
`fuzzy_match_string.map(|f| domain.contains(f)).unwrap_or(false)`. -/
def isInScope (rootDomain : String) (fuzzy : Option String) (absoluteLinkDomain : String) : Bool :=
  (rootDomain == absoluteLinkDomain) ||
    ((fuzzy.map (fun f => containsSubstr absoluteLinkDomain f)).getD false)

/-- One iteration of the link loop of `crawl_and_collect_404s`
(`src/main.rs:175-198`) for a single raw link: resolve it against the root
URL (a parse error propagates), skip it when it has no domain, and otherwise
report the frontier push exactly when it is in scope and not yet visited. -/
def linkAction (w : World) (root : Url) (rootDomain : String) (fuzzy : Option String)
    (visited : List String) (link : String) : Except Unit (Option String) :=
  match make_absolute_url w root link with
  | .error e => .error e
  | .ok absoluteLink =>
    match absoluteLink.dom with
    | none => .ok none
    | some absoluteLinkDomain =>
      if isInScope rootDomain fuzzy absoluteLinkDomain
          && !(visited.contains absoluteLink.str) then
        .ok (some absoluteLink.str)
      else
        .ok none

/-- The link loop of `crawl_and_collect_404s` over all extracted links of a
page: threads the frontier (`to_visit`, top of stack at the head) and returns
the events it generates; an `Except.error` result is the propagated URL-parse
error, carrying the events generated before the abort. -/
def processLinks (w : World) (root : Url) (rootDomain : String) (fuzzy : Option String)
    (visited : List String) :
    List String → List String → Except (List Event) (List String × List Event)
  | [], toVisit => .ok (toVisit, [])
  | link :: rest, toVisit =>
    match linkAction w root rootDomain fuzzy visited link with
    | .error _ => .error [Event.resolve root link]
    | .ok none =>
      match processLinks w root rootDomain fuzzy visited rest toVisit with
      | .error evs => .error (Event.resolve root link :: evs)
      | .ok (tv, evs) => .ok (tv, Event.resolve root link :: evs)
    | .ok (some u) =>
      match processLinks w root rootDomain fuzzy visited rest (u :: toVisit) with
      | .error evs => .error (Event.resolve root link :: Event.pushFrontier u :: evs)
      | .ok (tv, evs) => .ok (tv, Event.resolve root link :: Event.pushFrontier u :: evs)

/-- Result of one crawl run: `finished` is the natural completion path
(sentinel sent), `aborted` is the propagated-error path of
`crawl_and_collect_404s`, and `outOfFuel` marks that the step budget of the
model ran out before the loop ended.  Each carries the chronological event
log of the run. -/
inductive CrawlResult where
  | finished (events : List Event)
  | aborted (events : List Event)
  | outOfFuel (events : List Event)
deriving DecidableEq

/-- Event log of a crawl result. -/
def CrawlResult.events : CrawlResult → List Event
  | finished evs => evs
  | aborted evs => evs
  | outOfFuel evs => evs

/-- Prepend earlier events onto a crawl result's log. -/
def CrawlResult.prepend (pre : List Event) : CrawlResult → CrawlResult
  | finished evs => finished (pre ++ evs)
  | aborted evs => aborted (pre ++ evs)
  | outOfFuel evs => outOfFuel (pre ++ evs)

/-- Events of the completion path (`src/main.rs:211-216`): send the `Done`
sentinel; a send failure is only logged. -/
def doneEvents (w : World) : List Event :=
  Event.send ChanMsg.done ::
    (if w.sendFails ChanMsg.done then [Event.logSendError ChanMsg.done] else [])

/-- The `while let Some(url) = to_visit.pop()` loop of
`crawl_and_collect_404s` (`src/main.rs:164-216`), with the stack top at the
head of `toVisit` and with an explicit fuel so the recursion is structural.
The iteration pops a URL; skips it when already visited; otherwise fetches
it and either processes its links (pushing in-scope unvisited resolutions),
emits `Found(url)` on a 404 (a send failure is only logged), or aborts on any
other fetch error; in the non-abort cases the URL is then added to the
visited list and the loop continues. -/
def crawlLoop (w : World) (root : Url) (rootDomain : String) (fuzzy : Option String) :
    Nat → List String → List String → CrawlResult
  | 0, _, _ => .outOfFuel []
  | _ + 1, [], _ => .finished (doneEvents w)
  | n + 1, url :: restToVisit, visited =>
    if visited.contains url then
      crawlLoop w root rootDomain fuzzy n restToVisit visited
    else
      match w.fetch url with
      | .ok hrefs =>
        match processLinks w root rootDomain fuzzy visited (find_links hrefs) restToVisit with
        | .error evs => .aborted (Event.fetch url :: evs)
        | .ok (toVisit2, evs) =>
          (crawlLoop w root rootDomain fuzzy n toVisit2 (visited ++ [url])).prepend
            (Event.fetch url :: evs ++ [Event.addVisited url])
      | .notFound =>
        (crawlLoop w root rootDomain fuzzy n restToVisit (visited ++ [url])).prepend
          (Event.fetch url :: Event.send (ChanMsg.found url) ::
            ((if w.sendFails (ChanMsg.found url) then
                [Event.logSendError (ChanMsg.found url)]
              else []) ++ [Event.addVisited url]))
      | .otherError => .aborted [Event.fetch url]

/-- Embedding of `crawl_and_collect_404s` (`src/main.rs:152-219`): obtain the
root domain (a domainless root aborts before anything else), then run the
crawl loop from the frontier `[root_url.to_string()]` and the empty visited
list. -/
def crawl_and_collect_404s (w : World) (root : Url) (fuzzy : Option String)
    (fuel : Nat) : CrawlResult :=
  match root.dom with
  | none => .aborted []
  | some rootDomain => crawlLoop w root rootDomain fuzzy fuel [root.str] []

/-- Messages sent on the channel during a run, in send order. -/
def sentMsgs (evs : List Event) : List ChanMsg :=
  evs.filterMap (fun e => match e with | .send m => some m | _ => none)

/-- URLs fetched during a run, in fetch order. -/
def fetchedUrls (evs : List Event) : List String :=
  evs.filterMap (fun e => match e with | .fetch u => some u | _ => none)

/-- URLs appended to the visited list during a run, in order. -/
def visitedAdds (evs : List Event) : List String :=
  evs.filterMap (fun e => match e with | .addVisited u => some u | _ => none)

/-- URLs pushed onto the frontier during a run, in order. -/
def pushedUrls (evs : List Event) : List String :=
  evs.filterMap (fun e => match e with | .pushFrontier u => some u | _ => none)

/-- URLs carried by `Found` messages, in order. -/
def foundUrls (msgs : List ChanMsg) : List String :=
  msgs.filterMap (fun m => match m with | .found u => some u | _ => none)

/-- The supervisor loop of `main` (`src/main.rs:52-75`) on a delivered message
sequence: accumulate the URL of each `Found` message, stop at the `Done`
sentinel, and stop when the channel closes (end of the sequence).  The
returned list is `not_found_urls`. -/
def supervisorAcc : List ChanMsg → List String
  | [] => []
  | ChanMsg.found u :: rest => u :: supervisorAcc rest
  | ChanMsg.done :: _ => []

/-- Pair each resolution event of a log with the page whose processing caused
it: the accumulator is the most recent fetched URL. -/
def resolvesWithPages : List Event → Option String → List (Option String × Url × String)
  | [], _ => []
  | Event.fetch u :: rest, _ => resolvesWithPages rest (some u)
  | Event.resolve b l :: rest, cur => (cur, b, l) :: resolvesWithPages rest cur
  | _ :: rest, cur => resolvesWithPages rest cur

/-- Discipline of the visited list over an event log: once a URL has been
added to the visited list, it is never fetched again and never pushed onto
the frontier again. -/
def NoEventAfterVisit (evs : List Event) : Prop :=
  ∀ l1 u l2, evs = l1 ++ Event.addVisited u :: l2 →
    Event.fetch u ∉ l2 ∧ Event.pushFrontier u ∉ l2

/-- Provenance of a URL string reaching the frontier or the fetcher: it is
the root URL's serialization, or the serialization of the resolution of some
non-denied raw href against the root. -/
def Prov (w : World) (root : Url) (u : String) : Prop :=
  u = root.str ∨
    ∃ link abs, isDeniedLink link = false ∧ w.join root link = .ok abs ∧ u = abs.str

/-- Processing-window discipline of an event log, scanned left to right with
the page currently being processed (fetched but not yet added to the visited
list) as state: a fetch opens a page only when none is open, every
resolution and every frontier push happens while a page is open — that is,
after that page's fetch and before that page's visited-addition — and every
visited-addition closes exactly the page being processed.  A log may end
with a page still open (an aborted run). -/
def WellFormedSteps : Option String → List Event → Prop
  | _, [] => True
  | cur, Event.fetch u :: rest => cur = none ∧ WellFormedSteps (some u) rest
  | cur, Event.resolve _ _ :: rest => cur.isSome = true ∧ WellFormedSteps cur rest
  | cur, Event.pushFrontier _ :: rest => cur.isSome = true ∧ WellFormedSteps cur rest
  | cur, Event.addVisited u :: rest => cur = some u ∧ WellFormedSteps none rest
  | cur, Event.send _ :: rest => WellFormedSteps cur rest
  | cur, Event.logSendError _ :: rest => WellFormedSteps cur rest

/-!
Instrumented-channel model (`src/debug_channel.rs`).

A `DebugSender::send` call performs, in order: `counter.fetch_add(1)`
(recording the incremented value as `current_size`), a load of `max_size`
followed by a compare-exchange loop raising `max_size` to `current_size`, the
channel send itself, and finally `counter.fetch_sub(1)`.  Each active call is
a `SendPhase`; `ChanStep` interleaves the atomic operations of any number of
concurrent calls, which is exactly the granularity the `AtomicUsize`
operations of the source provide.
-/

/-- Program counter of one in-flight `DebugSender::send` call between its
`fetch_add` and its `fetch_sub`: `cur` is the `current_size` the call
recorded; `looping cur m` is inside the compare-exchange loop with local
variable `max_size = m`; `sending cur` has left the loop and is performing
(or has finished) the channel send, but has not yet decremented. -/
inductive SendPhase where
  | afterInc (cur : Nat)
  | looping (cur : Nat) (m : Nat)
  | sending (cur : Nat)
deriving DecidableEq

/-- The `current_size` value a send call recorded at its increment. -/
def SendPhase.cur : SendPhase → Nat
  | afterInc c => c
  | looping c _ => c
  | sending c => c

/-- Shared channel statistics plus the in-flight send calls: `counter` and
`maxSize` are the two `AtomicUsize` values of `DebugChannel`; `threads` are
the active `DebugSender::send` calls in order of their increments. -/
structure ChanState where
  counter : Nat
  maxSize : Nat
  threads : List SendPhase
deriving DecidableEq

/-- State after `DebugChannel::new`: both atomics zeroed, no send in flight. -/
def chanInit : ChanState := ⟨0, 0, []⟩

/-- One atomic operation of some in-flight `DebugSender::send` call
(`src/debug_channel.rs:13-34`), or the start of a new call:
* `startSend` — `counter.fetch_add(1, SeqCst)`, recording `current_size`;
* `loadMax` — `max_size.load(SeqCst)` into the local loop variable;
* `loopExit` — the `while current_size > max_size` test fails, leaving the loop;
* `casOk` — a successful `compare_exchange(max_size, current_size)`;
* `casRetry` — a failed compare-exchange reloading the current value;
* `finishSend` — `counter.fetch_sub(1, SeqCst)` after the channel send,
  removing the call (taken on the success and failure paths alike). -/
inductive ChanStep : ChanState → ChanState → Prop where
  | startSend (c m : Nat) (ts : List SendPhase) :
      ChanStep ⟨c, m, ts⟩ ⟨c + 1, m, ts ++ [SendPhase.afterInc (c + 1)]⟩
  | loadMax (c m : Nat) (pre post : List SendPhase) (cur : Nat) :
      ChanStep ⟨c, m, pre ++ SendPhase.afterInc cur :: post⟩
               ⟨c, m, pre ++ SendPhase.looping cur m :: post⟩
  | loopExit (c m : Nat) (pre post : List SendPhase) (cur mLoc : Nat)
      (h : cur ≤ mLoc) :
      ChanStep ⟨c, m, pre ++ SendPhase.looping cur mLoc :: post⟩
               ⟨c, m, pre ++ SendPhase.sending cur :: post⟩
  | casOk (c m : Nat) (pre post : List SendPhase) (cur mLoc : Nat)
      (h : mLoc < cur) (heq : mLoc = m) :
      ChanStep ⟨c, m, pre ++ SendPhase.looping cur mLoc :: post⟩
               ⟨c, cur, pre ++ SendPhase.sending cur :: post⟩
  | casRetry (c m : Nat) (pre post : List SendPhase) (cur mLoc : Nat)
      (h : mLoc < cur) (hne : mLoc ≠ m) :
      ChanStep ⟨c, m, pre ++ SendPhase.looping cur mLoc :: post⟩
               ⟨c, m, pre ++ SendPhase.looping cur m :: post⟩
  | finishSend (c m : Nat) (pre post : List SendPhase) (cur : Nat) :
      ChanStep ⟨c, m, pre ++ SendPhase.sending cur :: post⟩
               ⟨c - 1, m, pre ++ post⟩

/-- States reachable from a freshly created channel. -/
def ChanReachable (s : ChanState) : Prop :=
  Relation.ReflTransGen ChanStep chanInit s

/-- Position discipline of the in-flight calls: the call at position `i`
(counting from the earliest increment, list position offset `k`) recorded a
`current_size` of at least `k + i + 1`. -/
def PosOk : Nat → List SendPhase → Prop
  | _, [] => True
  | k, t :: ts => k + 1 ≤ t.cur ∧ PosOk (k + 1) ts

/-- Inductive invariant of the channel statistics: the counter equals the
number of in-flight calls, positions bound recorded sizes, every call past
its update loop is dominated by `maxSize`, and every loop-local `max_size`
variable is a previously read (hence dominated) value of `maxSize`. -/
def ChanInv (s : ChanState) : Prop :=
  s.counter = s.threads.length ∧
  PosOk 0 s.threads ∧
  (∀ cur, SendPhase.sending cur ∈ s.threads → cur ≤ s.maxSize) ∧
  (∀ cur mLoc, SendPhase.looping cur mLoc ∈ s.threads → mLoc ≤ s.maxSize)

/-!
Concrete instances used to evaluate the model on closed inputs.
-/

/-- Root URL `https://ex.com/` with domain `ex.com`. -/
def root1 : Url := ⟨"https://ex.com/", some "ex.com"⟩

/-- A site whose root page links to `dir/page`, whose page at
`https://ex.com/dir/page` carries the relative href `sub`, and whose page at
`https://ex.com/sub` has no links; the join collaborator resolves hrefs the
way `Url::join` does against the base it is given. -/
def W1 : World :=
  { fetch := fun u =>
      if u = "https://ex.com/" then .ok ["dir/page"]
      else if u = "https://ex.com/dir/page" then .ok ["sub"]
      else if u = "https://ex.com/sub" then .ok []
      else .otherError
    join := fun b l =>
      if b.str = "https://ex.com/" ∧ l = "dir/page" then
        .ok ⟨"https://ex.com/dir/page", some "ex.com"⟩
      else if b.str = "https://ex.com/" ∧ l = "sub" then
        .ok ⟨"https://ex.com/sub", some "ex.com"⟩
      else if b.str = "https://ex.com/dir/page" ∧ l = "sub" then
        .ok ⟨"https://ex.com/dir/sub", some "ex.com"⟩
      else .error ()
    sendFails := fun _ => false }

/-- A site whose root page carries the href `c` twice; `c` resolves to
`https://ex.com/c`, a page without links. -/
def Wd : World :=
  { fetch := fun u =>
      if u = "https://ex.com/" then .ok ["c", "c"]
      else if u = "https://ex.com/c" then .ok []
      else .otherError
    join := fun _ l =>
      if l = "c" then .ok ⟨"https://ex.com/c", some "ex.com"⟩
      else .error ()
    sendFails := fun _ => false }

/-- A world in which every fetch returns a 404. -/
def Wnf : World :=
  { fetch := fun _ => .notFound
    join := fun _ _ => .error ()
    sendFails := fun _ => false }

/-- A world in which every fetch fails with a non-404 error. -/
def Woe : World :=
  { fetch := fun _ => .otherError
    join := fun _ _ => .error ()
    sendFails := fun _ => false }

/-- Events generated by a link-loop run, on the abort path as well as on the
success path. -/
def plEvents : Except (List Event) (List String × List Event) → List Event
  | .error evs => evs
  | .ok (_, evs) => evs

/-- The full event log of the crawl of the duplicate-link site `Wd` from
root `https://ex.com/`. -/
def EWd : List Event :=
  [Event.fetch "https://ex.com/",
   Event.resolve root1 "c",
   Event.pushFrontier "https://ex.com/c",
   Event.resolve root1 "c",
   Event.pushFrontier "https://ex.com/c",
   Event.addVisited "https://ex.com/",
   Event.fetch "https://ex.com/c",
   Event.addVisited "https://ex.com/c",
   Event.send ChanMsg.done]

/-!
Lemmas about the instrumented channel.
-/

/-- No atomic operation of a send call ever lowers `max_size`. -/
theorem chanStep_maxSize_mono {s s' : ChanState} (h : ChanStep s s') :
    s.maxSize ≤ s'.maxSize := by
  cases h with
  | startSend c m ts => exact Nat.le_refl m
  | loadMax c m pre post cur => exact Nat.le_refl m
  | loopExit c m pre post cur mLoc h => exact Nat.le_refl m
  | casOk c m pre post cur mLoc h heq => show m ≤ cur; omega
  | casRetry c m pre post cur mLoc h hne => exact Nat.le_refl m
  | finishSend c m pre post cur => exact Nat.le_refl m

/-- Along any sequence of channel operations, `max_size` never decreases. -/
theorem chanSteps_maxSize_mono {s s' : ChanState}
    (h : Relation.ReflTransGen ChanStep s s') : s.maxSize ≤ s'.maxSize := by
  induction h with
  | refl => exact le_refl _
  | tail _ hstep ih => exact le_trans ih (chanStep_maxSize_mono hstep)

/-- Weakening the position offset preserves the position discipline. -/
theorem posOk_mono {k' k : Nat} {ts : List SendPhase} (hk : k' ≤ k)
    (h : PosOk k ts) : PosOk k' ts := by
  induction ts generalizing k k' with
  | nil => trivial
  | cons t ts ih =>
    obtain ⟨h1, h2⟩ := h
    exact ⟨by omega, ih (by omega) h2⟩

/-- The position discipline splits over list concatenation. -/
theorem posOk_append : ∀ (xs : List SendPhase) (k : Nat) (ys : List SendPhase),
    PosOk k (xs ++ ys) ↔ PosOk k xs ∧ PosOk (k + xs.length) ys := by
  intro xs
  induction xs with
  | nil => intro k ys; simp [PosOk]
  | cons x xs ih =>
    intro k ys
    have he : k + (x :: xs).length = k + 1 + xs.length := by
      simp only [List.length_cons]; omega
    constructor
    · rintro ⟨h1, h2⟩
      have h2' : PosOk (k + 1) (xs ++ ys) := h2
      rw [ih] at h2'
      exact ⟨⟨h1, h2'.1⟩, by rw [he]; exact h2'.2⟩
    · rintro ⟨⟨h1, h2⟩, h3⟩
      refine ⟨h1, ?_⟩
      show PosOk (k + 1) (xs ++ ys)
      rw [ih]
      exact ⟨h2, by rw [← he]; exact h3⟩

/-- Replacing an in-flight call by one that recorded the same size preserves
the position discipline. -/
theorem posOk_replace {k : Nat} {pre post : List SendPhase} {t t' : SendPhase}
    (hc : t'.cur = t.cur) (h : PosOk k (pre ++ t :: post)) :
    PosOk k (pre ++ t' :: post) := by
  rw [posOk_append] at h ⊢
  obtain ⟨h1, h2, h3⟩ := h
  exact ⟨h1, by rw [hc]; exact h2, h3⟩

/-- Removing an in-flight call preserves the position discipline. -/
theorem posOk_remove {k : Nat} {pre post : List SendPhase} {t : SendPhase}
    (h : PosOk k (pre ++ t :: post)) : PosOk k (pre ++ post) := by
  rw [posOk_append] at h ⊢
  obtain ⟨h1, _, h3⟩ := h
  exact ⟨h1, posOk_mono (by omega) h3⟩

/-- A nonempty list satisfying the position discipline contains a call whose
recorded size is at least the offset plus the list length. -/
theorem posOk_top : ∀ (ts : List SendPhase) (k : Nat), PosOk k ts → ts ≠ [] →
    ∃ t, t ∈ ts ∧ k + ts.length ≤ t.cur := by
  intro ts
  induction ts with
  | nil => intro k _ h; exact absurd rfl h
  | cons t ts ih =>
    rintro k ⟨h1, h2⟩ _
    cases ts with
    | nil =>
      refine ⟨t, List.mem_cons_self t [], ?_⟩
      simpa using h1
    | cons t2 ts2 =>
      obtain ⟨t', ht', hc⟩ := ih (k + 1) h2 (by simp)
      refine ⟨t', List.mem_cons_of_mem t ht', ?_⟩
      simp only [List.length_cons] at hc ⊢
      omega

/-- The channel invariant holds at channel creation. -/
theorem chanInv_init : ChanInv chanInit := by
  refine ⟨rfl, trivial, ?_, ?_⟩
  · intro cur hmem
    exact absurd hmem (by simp [chanInit])
  · intro cur mLoc hmem
    exact absurd hmem (by simp [chanInit])

/-- Membership in the middle of a decomposed thread list. -/
theorem mem_middle (pre post : List SendPhase) (t : SendPhase) :
    t ∈ pre ++ t :: post :=
  List.mem_append.mpr (Or.inr (List.mem_cons_self t post))

/-- Membership transfer when the middle element of a thread list changes. -/
theorem mem_replace {x : SendPhase} (pre post : List SendPhase) (t t' : SendPhase)
    (hmem : x ∈ pre ++ t' :: post) : x = t' ∨ x ∈ pre ++ t :: post := by
  rcases List.mem_append.mp hmem with hmem | hmem
  · exact Or.inr (List.mem_append.mpr (Or.inl hmem))
  · rcases List.mem_cons.mp hmem with hmem | hmem
    · exact Or.inl hmem
    · exact Or.inr (List.mem_append.mpr (Or.inr (List.mem_cons.mpr (Or.inr hmem))))

/-- Every atomic operation of the channel preserves the invariant. -/
theorem chanInv_step {s s' : ChanState} (hinv : ChanInv s) (h : ChanStep s s') :
    ChanInv s' := by
  obtain ⟨hlen, hpos, hsend, hloop⟩ := hinv
  cases h with
  | startSend c m ts =>
    have hlen' : c = ts.length := hlen
    refine ⟨?_, ?_, ?_, ?_⟩
    · show c + 1 = (ts ++ [SendPhase.afterInc (c + 1)]).length
      simp only [List.length_append, List.length_cons, List.length_nil]
      omega
    · show PosOk 0 (ts ++ [SendPhase.afterInc (c + 1)])
      rw [posOk_append]
      refine ⟨hpos, ?_, trivial⟩
      show 0 + ts.length + 1 ≤ c + 1
      omega
    · intro cur hmem
      show cur ≤ m
      rcases List.mem_append.mp hmem with hmem | hmem
      · exact hsend cur hmem
      · exact absurd (List.mem_singleton.mp hmem) (by simp)
    · intro cur mLoc hmem
      show mLoc ≤ m
      rcases List.mem_append.mp hmem with hmem | hmem
      · exact hloop cur mLoc hmem
      · exact absurd (List.mem_singleton.mp hmem) (by simp)
  | loadMax c m pre post cur =>
    refine ⟨?_, ?_, ?_, ?_⟩
    · show c = (pre ++ SendPhase.looping cur m :: post).length
      have hlen' : c = (pre ++ SendPhase.afterInc cur :: post).length := hlen
      simp only [List.length_append, List.length_cons] at hlen' ⊢
      omega
    · exact @posOk_replace 0 pre post (SendPhase.afterInc cur)
        (SendPhase.looping cur m) rfl hpos
    · intro c' hmem
      show c' ≤ m
      rcases mem_replace pre post (SendPhase.afterInc cur) _ hmem with heq | hold
      · exact absurd heq (by simp)
      · exact hsend c' hold
    · intro c' m' hmem
      show m' ≤ m
      rcases mem_replace pre post (SendPhase.afterInc cur) _ hmem with heq | hold
      · injection heq with h1 h2
        omega
      · exact hloop c' m' hold
  | loopExit c m pre post cur mLoc hle =>
    have hcurm : cur ≤ m :=
      le_trans hle (hloop cur mLoc (mem_middle pre post _))
    refine ⟨?_, ?_, ?_, ?_⟩
    · show c = (pre ++ SendPhase.sending cur :: post).length
      have hlen' : c = (pre ++ SendPhase.looping cur mLoc :: post).length := hlen
      simp only [List.length_append, List.length_cons] at hlen' ⊢
      omega
    · exact @posOk_replace 0 pre post (SendPhase.looping cur mLoc)
        (SendPhase.sending cur) rfl hpos
    · intro c' hmem
      show c' ≤ m
      rcases mem_replace pre post (SendPhase.looping cur mLoc) _ hmem with heq | hold
      · injection heq with h1
        omega
      · exact hsend c' hold
    · intro c' m' hmem
      show m' ≤ m
      rcases mem_replace pre post (SendPhase.looping cur mLoc) _ hmem with heq | hold
      · exact absurd heq (by simp)
      · exact hloop c' m' hold
  | casOk c m pre post cur mLoc hlt heq =>
    refine ⟨?_, ?_, ?_, ?_⟩
    · show c = (pre ++ SendPhase.sending cur :: post).length
      have hlen' : c = (pre ++ SendPhase.looping cur mLoc :: post).length := hlen
      simp only [List.length_append, List.length_cons] at hlen' ⊢
      omega
    · exact @posOk_replace 0 pre post (SendPhase.looping cur mLoc)
        (SendPhase.sending cur) rfl hpos
    · intro c' hmem
      show c' ≤ cur
      rcases mem_replace pre post (SendPhase.looping cur mLoc) _ hmem with he | hold
      · injection he with h1
        omega
      · have hc' : c' ≤ m := hsend c' hold
        omega
    · intro c' m' hmem
      show m' ≤ cur
      rcases mem_replace pre post (SendPhase.looping cur mLoc) _ hmem with he | hold
      · exact absurd he (by simp)
      · have hc' : m' ≤ m := hloop c' m' hold
        omega
  | casRetry c m pre post cur mLoc hlt hne =>
    refine ⟨?_, ?_, ?_, ?_⟩
    · show c = (pre ++ SendPhase.looping cur m :: post).length
      have hlen' : c = (pre ++ SendPhase.looping cur mLoc :: post).length := hlen
      simp only [List.length_append, List.length_cons] at hlen' ⊢
      omega
    · exact @posOk_replace 0 pre post (SendPhase.looping cur mLoc)
        (SendPhase.looping cur m) rfl hpos
    · intro c' hmem
      show c' ≤ m
      rcases mem_replace pre post (SendPhase.looping cur mLoc) _ hmem with he | hold
      · exact absurd he (by simp)
      · exact hsend c' hold
    · intro c' m' hmem
      show m' ≤ m
      rcases mem_replace pre post (SendPhase.looping cur mLoc) _ hmem with he | hold
      · injection he with h1 h2
        omega
      · exact hloop c' m' hold
  | finishSend c m pre post cur =>
    refine ⟨?_, ?_, ?_, ?_⟩
    · show c - 1 = (pre ++ post).length
      have hlen' : c = (pre ++ SendPhase.sending cur :: post).length := hlen
      simp only [List.length_append, List.length_cons] at hlen'
      simp only [List.length_append]
      omega
    · exact posOk_remove hpos
    · intro c' hmem
      show c' ≤ m
      rcases List.mem_append.mp hmem with hmem | hmem
      · exact hsend c' (List.mem_append.mpr (Or.inl hmem))
      · exact hsend c' (List.mem_append.mpr (Or.inr (List.mem_cons.mpr (Or.inr hmem))))
    · intro c' m' hmem
      show m' ≤ m
      rcases List.mem_append.mp hmem with hmem | hmem
      · exact hloop c' m' (List.mem_append.mpr (Or.inl hmem))
      · exact hloop c' m' (List.mem_append.mpr (Or.inr (List.mem_cons.mpr (Or.inr hmem))))

/-- The channel invariant holds at every reachable state. -/
theorem chanInv_reachable {s : ChanState} (h : ChanReachable s) : ChanInv s := by
  unfold ChanReachable at h
  induction h with
  | refl => exact chanInv_init
  | tail _ hstep ih => exact chanInv_step ih hstep

/-- At every reachable state where no send call is still between its
increment and the completion of its `max_size` update, the peak dominates the
in-flight count. -/
theorem chan_peak_of_quiescent {s : ChanState} (h : ChanReachable s)
    (hq : ∀ t ∈ s.threads, ∃ cur, t = SendPhase.sending cur) :
    s.counter ≤ s.maxSize := by
  obtain ⟨hlen, hpos, hsend, _⟩ := chanInv_reachable h
  rcases hts : s.threads with _ | ⟨t, ts⟩
  · rw [hlen, hts]
    simp
  · have hne : s.threads ≠ [] := by rw [hts]; simp
    obtain ⟨t', ht', hc⟩ := posOk_top s.threads 0 hpos hne
    obtain ⟨cur, hcur⟩ := hq t' ht'
    have hcc : t'.cur = cur := by rw [hcur]; rfl
    have hms : cur ≤ s.maxSize := hsend cur (hcur ▸ ht')
    omega

/-- C4 (amended): the channel statistics start zeroed at channel creation;
`peak` (`max_size`) is monotonically non-decreasing along every sequence of
channel operations; and `peak ≥ in_flight` holds at every reachable instant
at which no send call is still between its `fetch_add` and the completion of
its peak update — in the window between a send's increment and its
compare-exchange, `in_flight` can transiently exceed `peak`. -/
theorem claim_C4 :
    (chanInit.counter = 0 ∧ chanInit.maxSize = 0) ∧
    (∀ s s' : ChanState, Relation.ReflTransGen ChanStep s s' →
      s.maxSize ≤ s'.maxSize) ∧
    (∀ s : ChanState, ChanReachable s →
      (∀ t ∈ s.threads, ∃ cur, t = SendPhase.sending cur) →
      s.counter ≤ s.maxSize) :=
  ⟨⟨rfl, rfl⟩, fun _ _ h => chanSteps_maxSize_mono h,
    fun _ h hq => chan_peak_of_quiescent h hq⟩

/-- Witness for C4: at the freshly created channel (reachable, no call in
flight) the quiescent peak inequality holds. -/
theorem claim_C4_witness : chanInit.counter ≤ chanInit.maxSize :=
  claim_C4.2.2 chanInit Relation.ReflTransGen.refl
    (by intro t ht; exact absurd ht (by simp [chanInit]))

/-- Counterexample for C4 as stated: the state immediately after a send's
`fetch_add` — one atomic step from channel creation, hence reachable — has
`in_flight = 1` but `peak = 0`, so `peak ≥ in_flight` fails at an observable
instant. -/
theorem claim_C4_counterexample :
    ChanReachable ⟨1, 0, [SendPhase.afterInc 1]⟩ ∧
      ¬ ((⟨1, 0, [SendPhase.afterInc 1]⟩ : ChanState).counter ≤
          (⟨1, 0, [SendPhase.afterInc 1]⟩ : ChanState).maxSize) :=
  ⟨Relation.ReflTransGen.single (ChanStep.startSend 0 0 []), by decide⟩

/-!
Generic list lemmas for event-log reasoning.
-/

/-- Any decomposition of a concatenation around a distinguished element finds
that element inside the left part or inside the right part. -/
theorem split_append {α : Type} {xs ys l1 : List α} {a : α} {l2 : List α}
    (h : xs ++ ys = l1 ++ a :: l2) :
    (∃ l2a, xs = l1 ++ a :: l2a ∧ l2 = l2a ++ ys) ∨
    (∃ l1b, l1 = xs ++ l1b ∧ ys = l1b ++ a :: l2) := by
  rcases List.append_eq_append_iff.mp h with ⟨a', h1, h2⟩ | ⟨c', h1, h2⟩
  · exact Or.inr ⟨a', h1, h2⟩
  · cases c' with
    | nil =>
      refine Or.inr ⟨[], by simp [h1], ?_⟩
      simpa using h2.symm
    | cons b bs =>
      simp only [List.cons_append] at h2
      injection h2 with hb hl2
      exact Or.inl ⟨bs, by rw [h1, hb], hl2⟩

/-- A log with no visited-addition trivially satisfies the visited
discipline. -/
theorem neav_of_no_addVisited {evs : List Event}
    (h : ∀ u, Event.addVisited u ∉ evs) : NoEventAfterVisit evs := by
  intro l1 u l2 heq
  exfalso
  apply h u
  rw [heq]
  exact List.mem_append.mpr (Or.inr (List.mem_cons_self _ _))

/-- A single visited-addition satisfies the visited discipline. -/
theorem neav_single (u : String) : NoEventAfterVisit [Event.addVisited u] := by
  intro l1 v l2 heq
  cases l1 with
  | nil =>
    injection heq with h1 h2
    subst h2
    simp
  | cons b bs =>
    rw [List.cons_append] at heq
    injection heq with h1 h2
    simp at h2

/-- The visited discipline is preserved by concatenation provided the right
part never fetches or pushes a URL whose visited-addition lies in the left
part. -/
theorem neav_append {xs ys : List Event} (hx : NoEventAfterVisit xs)
    (hy : NoEventAfterVisit ys)
    (hcross : ∀ u, Event.addVisited u ∈ xs →
      Event.fetch u ∉ ys ∧ Event.pushFrontier u ∉ ys) :
    NoEventAfterVisit (xs ++ ys) := by
  intro l1 u l2 heq
  rcases split_append heq with ⟨l2a, hxs, hl2⟩ | ⟨l1b, hl1, hys⟩
  · obtain ⟨hf, hp⟩ := hx l1 u l2a hxs
    have hmem : Event.addVisited u ∈ xs := by
      rw [hxs]
      exact List.mem_append.mpr (Or.inr (List.mem_cons_self _ _))
    obtain ⟨hf2, hp2⟩ := hcross u hmem
    subst hl2
    refine ⟨?_, ?_⟩
    · intro hmem'
      rcases List.mem_append.mp hmem' with h' | h'
      · exact hf h'
      · exact hf2 h'
    · intro hmem'
      rcases List.mem_append.mp hmem' with h' | h'
      · exact hp h'
      · exact hp2 h'
  · exact hy l1b u l2 hys

/-- Appending a final visited-addition to an addition-free log satisfies the
visited discipline. -/
theorem neav_snoc {xs : List Event} (u : String)
    (h : ∀ v, Event.addVisited v ∉ xs) :
    NoEventAfterVisit (xs ++ [Event.addVisited u]) :=
  neav_append (neav_of_no_addVisited h) (neav_single u)
    (fun v hv => absurd hv (h v))

/-!
Lemmas about the link loop.
-/

/-- Unfolding of the per-link decision when the resolution fails. -/
theorem linkAction_err_eq {w : World} {root : Url} {rootDomain : String}
    {fuzzy : Option String} {visited : List String} {link : String} {e : Unit}
    (hj : make_absolute_url w root link = .error e) :
    linkAction w root rootDomain fuzzy visited link = .error e := by
  unfold linkAction
  rw [hj]

/-- Unfolding of the per-link decision when the resolved URL has no
domain. -/
theorem linkAction_nodom_eq {w : World} {root : Url} {rootDomain : String}
    {fuzzy : Option String} {visited : List String} {link : String} {abs : Url}
    (hj : make_absolute_url w root link = .ok abs) (hd : abs.dom = none) :
    linkAction w root rootDomain fuzzy visited link = .ok none := by
  unfold linkAction
  rw [hj]
  simp [hd]

/-- Unfolding of the per-link decision when the resolved URL has a
domain. -/
theorem linkAction_dom_eq {w : World} {root : Url} {rootDomain : String}
    {fuzzy : Option String} {visited : List String} {link : String} {abs : Url}
    {d : String} (hj : make_absolute_url w root link = .ok abs)
    (hd : abs.dom = some d) :
    linkAction w root rootDomain fuzzy visited link =
      if isInScope rootDomain fuzzy d && !(visited.contains abs.str) then
        .ok (some abs.str)
      else .ok none := by
  unfold linkAction
  rw [hj]
  simp [hd]

/-- A per-link decision aborts exactly when the URL resolution fails. -/
theorem linkAction_error_iff (w : World) (root : Url) (rootDomain : String)
    (fuzzy : Option String) (visited : List String) (link : String) (e : Unit) :
    linkAction w root rootDomain fuzzy visited link = .error e ↔
      make_absolute_url w root link = .error e := by
  cases hj : make_absolute_url w root link with
  | error e' =>
    rw [linkAction_err_eq hj]
    constructor <;> intro h <;> rfl
  | ok abs =>
    cases hd : abs.dom with
    | none =>
      rw [linkAction_nodom_eq hj hd]
      simp
    | some d =>
      rw [linkAction_dom_eq hj hd]
      split <;> simp

/-- Inversion of the per-link decision: a frontier push is produced exactly
for a link that resolves, has a domain, is in scope and is not yet
visited. -/
theorem linkAction_ok_some_iff (w : World) (root : Url) (rootDomain : String)
    (fuzzy : Option String) (visited : List String) (link : String) (u : String) :
    linkAction w root rootDomain fuzzy visited link = .ok (some u) ↔
      ∃ abs d, make_absolute_url w root link = .ok abs ∧ abs.dom = some d ∧
        isInScope rootDomain fuzzy d = true ∧ visited.contains abs.str = false ∧
        u = abs.str := by
  cases hj : make_absolute_url w root link with
  | error e =>
    rw [linkAction_err_eq hj]
    simp
  | ok abs =>
    cases hd : abs.dom with
    | none =>
      rw [linkAction_nodom_eq hj hd]
      simp [hd]
    | some d =>
      rw [linkAction_dom_eq hj hd]
      by_cases hab : (isInScope rootDomain fuzzy d && !(visited.contains abs.str)) = true
      · rw [if_pos hab]
        rw [Bool.and_eq_true, Bool.not_eq_true'] at hab
        constructor
        · intro h
          injection h with h1
          injection h1 with h2
          exact ⟨abs, d, rfl, hd, hab.1, hab.2, h2.symm⟩
        · rintro ⟨abs', d', habs, hd', hsc, hcont, hu⟩
          injection habs with habs'
          subst habs'
          rw [hu]
      · rw [if_neg hab]
        rw [Bool.and_eq_true] at hab
        simp only [Bool.not_eq_true'] at hab
        constructor
        · intro h
          exact absurd h (by simp)
        · rintro ⟨abs', d', habs, hd', hsc, hcont, hu⟩
          exfalso
          injection habs with habs'
          subst habs'
          rw [hd] at hd'
          injection hd' with hd''
          subst hd''
          exact hab ⟨hsc, hcont⟩


/-- Shape and provenance of the events of a link loop: every event is the
resolution of one of the links against the root, or a frontier push produced
by a positive per-link decision on one of the links. -/
theorem processLinks_events (w : World) (root : Url) (rootDomain : String)
    (fuzzy : Option String) (visited : List String) :
    ∀ (links toVisit : List String) (e : Event),
      e ∈ plEvents (processLinks w root rootDomain fuzzy visited links toVisit) →
        (∃ l, l ∈ links ∧ e = Event.resolve root l) ∨
        (∃ u l, l ∈ links ∧
          linkAction w root rootDomain fuzzy visited l = .ok (some u) ∧
          e = Event.pushFrontier u) := by
  intro links
  induction links with
  | nil =>
    intro toVisit e he
    simp [processLinks, plEvents] at he
  | cons link rest ih =>
    intro toVisit e he
    cases hla : linkAction w root rootDomain fuzzy visited link with
    | error e' =>
      simp only [processLinks, hla, plEvents, List.mem_singleton] at he
      exact Or.inl ⟨link, List.mem_cons_self _ _, he⟩
    | ok ou =>
      cases ou with
      | none =>
        cases hrec : processLinks w root rootDomain fuzzy visited rest toVisit with
        | error evs =>
          simp only [processLinks, hla, hrec, plEvents, List.mem_cons] at he
          rcases he with he | he
          · exact Or.inl ⟨link, List.mem_cons_self _ _, he⟩
          · rcases ih toVisit e (by rw [hrec]; exact he) with
              ⟨l, hl, hee⟩ | ⟨u, l, hl, hla2, hee⟩
            · exact Or.inl ⟨l, List.mem_cons_of_mem _ hl, hee⟩
            · exact Or.inr ⟨u, l, List.mem_cons_of_mem _ hl, hla2, hee⟩
        | ok p =>
          obtain ⟨tv, evs⟩ := p
          simp only [processLinks, hla, hrec, plEvents, List.mem_cons] at he
          rcases he with he | he
          · exact Or.inl ⟨link, List.mem_cons_self _ _, he⟩
          · rcases ih toVisit e (by rw [hrec]; exact he) with
              ⟨l, hl, hee⟩ | ⟨u, l, hl, hla2, hee⟩
            · exact Or.inl ⟨l, List.mem_cons_of_mem _ hl, hee⟩
            · exact Or.inr ⟨u, l, List.mem_cons_of_mem _ hl, hla2, hee⟩
      | some u' =>
        cases hrec : processLinks w root rootDomain fuzzy visited rest (u' :: toVisit) with
        | error evs =>
          simp only [processLinks, hla, hrec, plEvents, List.mem_cons] at he
          rcases he with he | he | he
          · exact Or.inl ⟨link, List.mem_cons_self _ _, he⟩
          · exact Or.inr ⟨u', link, List.mem_cons_self _ _, hla, he⟩
          · rcases ih (u' :: toVisit) e (by rw [hrec]; exact he) with
              ⟨l, hl, hee⟩ | ⟨u, l, hl, hla2, hee⟩
            · exact Or.inl ⟨l, List.mem_cons_of_mem _ hl, hee⟩
            · exact Or.inr ⟨u, l, List.mem_cons_of_mem _ hl, hla2, hee⟩
        | ok p =>
          obtain ⟨tv, evs⟩ := p
          simp only [processLinks, hla, hrec, plEvents, List.mem_cons] at he
          rcases he with he | he | he
          · exact Or.inl ⟨link, List.mem_cons_self _ _, he⟩
          · exact Or.inr ⟨u', link, List.mem_cons_self _ _, hla, he⟩
          · rcases ih (u' :: toVisit) e (by rw [hrec]; exact he) with
              ⟨l, hl, hee⟩ | ⟨u, l, hl, hla2, hee⟩
            · exact Or.inl ⟨l, List.mem_cons_of_mem _ hl, hee⟩
            · exact Or.inr ⟨u, l, List.mem_cons_of_mem _ hl, hla2, hee⟩

/-- Provenance of the frontier after a link loop: every entry was already in
the frontier or was pushed during the loop. -/
theorem processLinks_toVisit (w : World) (root : Url) (rootDomain : String)
    (fuzzy : Option String) (visited : List String) :
    ∀ (links toVisit tv : List String) (evs : List Event),
      processLinks w root rootDomain fuzzy visited links toVisit = .ok (tv, evs) →
      ∀ u ∈ tv, u ∈ toVisit ∨ Event.pushFrontier u ∈ evs := by
  intro links
  induction links with
  | nil =>
    intro toVisit tv evs heq u hu
    simp only [processLinks, Except.ok.injEq, Prod.mk.injEq] at heq
    obtain ⟨h1, h2⟩ := heq
    subst h1
    exact Or.inl hu
  | cons link rest ih =>
    intro toVisit tv evs heq u hu
    cases hla : linkAction w root rootDomain fuzzy visited link with
    | error e' =>
      simp only [processLinks, hla] at heq
      exact absurd heq (by simp)
    | ok ou =>
      cases ou with
      | none =>
        cases hrec : processLinks w root rootDomain fuzzy visited rest toVisit with
        | error evs' =>
          simp only [processLinks, hla, hrec] at heq
          exact absurd heq (by simp)
        | ok p =>
          obtain ⟨tv', evs'⟩ := p
          simp only [processLinks, hla, hrec, Except.ok.injEq, Prod.mk.injEq] at heq
          obtain ⟨h1, h2⟩ := heq
          subst h1
          subst h2
          rcases ih toVisit tv' evs' hrec u hu with h | h
          · exact Or.inl h
          · exact Or.inr (List.mem_cons_of_mem _ h)
      | some u' =>
        cases hrec : processLinks w root rootDomain fuzzy visited rest (u' :: toVisit) with
        | error evs' =>
          simp only [processLinks, hla, hrec] at heq
          exact absurd heq (by simp)
        | ok p =>
          obtain ⟨tv', evs'⟩ := p
          simp only [processLinks, hla, hrec, Except.ok.injEq, Prod.mk.injEq] at heq
          obtain ⟨h1, h2⟩ := heq
          subst h1
          subst h2
          rcases ih (u' :: toVisit) tv' evs' hrec u hu with h | h
          · rcases List.mem_cons.mp h with h | h
            · subst h
              exact Or.inr (List.mem_cons_of_mem _ (List.mem_cons_self _ _))
            · exact Or.inl h
          · exact Or.inr (List.mem_cons_of_mem _ (List.mem_cons_of_mem _ h))

/-!
Unfolding equations and helpers for the crawl loop.
-/

/-- Prepending events prepends them to the log. -/
theorem prepend_events (pre : List Event) (res : CrawlResult) :
    (res.prepend pre).events = pre ++ res.events := by
  cases res <;> rfl

/-- Prepending events preserves the result kind (continuing, aborted or
out-of-fuel). -/
theorem prepend_cases (pre : List Event) (res : CrawlResult) :
    (∃ evs, res = .finished evs ∧ res.prepend pre = .finished (pre ++ evs)) ∨
    (∃ evs, res = .aborted evs ∧ res.prepend pre = .aborted (pre ++ evs)) ∨
    (∃ evs, res = .outOfFuel evs ∧ res.prepend pre = .outOfFuel (pre ++ evs)) := by
  cases res with
  | finished evs => exact Or.inl ⟨evs, rfl, rfl⟩
  | aborted evs => exact Or.inr (Or.inl ⟨evs, rfl, rfl⟩)
  | outOfFuel evs => exact Or.inr (Or.inr ⟨evs, rfl, rfl⟩)

/-- A `contains` returning `false` means non-membership. -/
theorem contains_false_not_mem {l : List String} {a : String}
    (h : l.contains a = false) : a ∉ l := by
  simpa using h

/-- The completion path emits only a send and possibly a send-failure log. -/
theorem doneEvents_shape (w : World) :
    ∀ e ∈ doneEvents w, ∃ m, e = Event.send m ∨ e = Event.logSendError m := by
  intro e he
  unfold doneEvents at he
  rcases List.mem_cons.mp he with he | he
  · exact ⟨ChanMsg.done, Or.inl he⟩
  · split at he
    · exact ⟨ChanMsg.done, Or.inr (List.mem_singleton.mp he)⟩
    · exact absurd he (by simp)

/-- Exhausted fuel: the loop reports it with an empty further log. -/
theorem crawlLoop_zero (w : World) (root : Url) (rootDomain : String)
    (fuzzy : Option String) (toVisit visited : List String) :
    crawlLoop w root rootDomain fuzzy 0 toVisit visited = .outOfFuel [] := rfl

/-- Empty frontier: the loop finishes and sends the sentinel. -/
theorem crawlLoop_nil (w : World) (root : Url) (rootDomain : String)
    (fuzzy : Option String) (n : Nat) (visited : List String) :
    crawlLoop w root rootDomain fuzzy (n + 1) [] visited =
      .finished (doneEvents w) := rfl

/-- Already-visited URL: popped and skipped with no events. -/
theorem crawlLoop_skip {w : World} {root : Url} {rootDomain : String}
    {fuzzy : Option String} {n : Nat} {url : String} {rest visited : List String}
    (hv : visited.contains url = true) :
    crawlLoop w root rootDomain fuzzy (n + 1) (url :: rest) visited =
      crawlLoop w root rootDomain fuzzy n rest visited := by
  have hm : url ∈ visited := by simpa using hv
  simp [crawlLoop, hm]

/-- Successful fetch: links are processed, the URL is visited, and the loop
continues from the grown frontier. -/
theorem crawlLoop_ok {w : World} {root : Url} {rootDomain : String}
    {fuzzy : Option String} {n : Nat} {url : String} {rest visited : List String}
    {hrefs : List String} {tv2 : List String} {evs : List Event}
    (hv : visited.contains url = false) (hf : w.fetch url = .ok hrefs)
    (hpl : processLinks w root rootDomain fuzzy visited (find_links hrefs) rest =
      .ok (tv2, evs)) :
    crawlLoop w root rootDomain fuzzy (n + 1) (url :: rest) visited =
      (crawlLoop w root rootDomain fuzzy n tv2 (visited ++ [url])).prepend
        (Event.fetch url :: evs ++ [Event.addVisited url]) := by
  have hm : url ∉ visited := contains_false_not_mem hv
  simp [crawlLoop, hm, hf, hpl]

/-- Successful fetch whose link loop hits a URL-parse error: the run
aborts. -/
theorem crawlLoop_ok_abort {w : World} {root : Url} {rootDomain : String}
    {fuzzy : Option String} {n : Nat} {url : String} {rest visited : List String}
    {hrefs : List String} {evs : List Event}
    (hv : visited.contains url = false) (hf : w.fetch url = .ok hrefs)
    (hpl : processLinks w root rootDomain fuzzy visited (find_links hrefs) rest =
      .error evs) :
    crawlLoop w root rootDomain fuzzy (n + 1) (url :: rest) visited =
      .aborted (Event.fetch url :: evs) := by
  have hm : url ∉ visited := contains_false_not_mem hv
  simp [crawlLoop, hm, hf, hpl]

/-- Fetch returning 404: the URL is reported on the channel (a send failure
is merely logged), the URL is visited, and the loop continues. -/
theorem crawlLoop_notFound {w : World} {root : Url} {rootDomain : String}
    {fuzzy : Option String} {n : Nat} {url : String} {rest visited : List String}
    (hv : visited.contains url = false) (hf : w.fetch url = .notFound) :
    crawlLoop w root rootDomain fuzzy (n + 1) (url :: rest) visited =
      (crawlLoop w root rootDomain fuzzy n rest (visited ++ [url])).prepend
        (Event.fetch url :: Event.send (ChanMsg.found url) ::
          ((if w.sendFails (ChanMsg.found url) then
              [Event.logSendError (ChanMsg.found url)]
            else []) ++ [Event.addVisited url])) := by
  have hm : url ∉ visited := contains_false_not_mem hv
  simp [crawlLoop, hm, hf]

/-- Fetch failing with any other error: the run aborts at once. -/
theorem crawlLoop_otherError {w : World} {root : Url} {rootDomain : String}
    {fuzzy : Option String} {n : Nat} {url : String} {rest visited : List String}
    (hv : visited.contains url = false) (hf : w.fetch url = .otherError) :
    crawlLoop w root rootDomain fuzzy (n + 1) (url :: rest) visited =
      .aborted [Event.fetch url] := by
  have hm : url ∉ visited := contains_false_not_mem hv
  simp [crawlLoop, hm, hf]

/-- The link loop never fetches, never adds to the visited list, never sends,
and never pushes an already-visited URL. -/
theorem plEvents_not_visited (w : World) (root : Url) (rootDomain : String)
    (fuzzy : Option String) (visited : List String) (links toVisit : List String)
    {u : String} (hu : u ∈ visited) :
    Event.fetch u ∉ plEvents (processLinks w root rootDomain fuzzy visited links toVisit) ∧
    Event.pushFrontier u ∉ plEvents (processLinks w root rootDomain fuzzy visited links toVisit) ∧
    Event.addVisited u ∉ plEvents (processLinks w root rootDomain fuzzy visited links toVisit) ∧
    (∀ m, Event.send m ∉ plEvents (processLinks w root rootDomain fuzzy visited links toVisit)) := by
  refine ⟨?_, ?_, ?_, ?_⟩
  · intro hmem
    rcases processLinks_events w root rootDomain fuzzy visited links toVisit _ hmem with
      ⟨l, _, he⟩ | ⟨u', l, _, _, he⟩ <;> simp at he
  · intro hmem
    rcases processLinks_events w root rootDomain fuzzy visited links toVisit _ hmem with
      ⟨l, _, he⟩ | ⟨u', l, _, hla, he⟩
    · simp at he
    · injection he with he'
      subst he'
      rw [linkAction_ok_some_iff] at hla
      obtain ⟨abs, d, _, _, _, hcont, hu'⟩ := hla
      subst hu'
      exact contains_false_not_mem hcont hu
  · intro hmem
    rcases processLinks_events w root rootDomain fuzzy visited links toVisit _ hmem with
      ⟨l, _, he⟩ | ⟨u', l, _, _, he⟩ <;> simp at he
  · intro m hmem
    rcases processLinks_events w root rootDomain fuzzy visited links toVisit _ hmem with
      ⟨l, _, he⟩ | ⟨u', l, _, _, he⟩ <;> simp at he

/-- Once a URL is in the visited list, the rest of the run never fetches it,
never pushes it onto the frontier, and never adds it to the visited list
again. -/
theorem crawlLoop_visited_frozen (w : World) (root : Url) (rootDomain : String)
    (fuzzy : Option String) :
    ∀ (n : Nat) (toVisit visited : List String) (u : String), u ∈ visited →
      Event.fetch u ∉ (crawlLoop w root rootDomain fuzzy n toVisit visited).events ∧
      Event.pushFrontier u ∉ (crawlLoop w root rootDomain fuzzy n toVisit visited).events ∧
      Event.addVisited u ∉ (crawlLoop w root rootDomain fuzzy n toVisit visited).events := by
  intro n
  induction n with
  | zero =>
    intro toVisit visited u hu
    rw [crawlLoop_zero]
    simp [CrawlResult.events]
  | succ n ih =>
    intro toVisit visited u hu
    cases toVisit with
    | nil =>
      rw [crawlLoop_nil]
      refine ⟨?_, ?_, ?_⟩ <;> intro hmem <;>
        rcases doneEvents_shape w _ hmem with ⟨m, h | h⟩ <;> simp at h
    | cons url rest =>
      cases hv : visited.contains url with
      | true =>
        rw [crawlLoop_skip hv]
        exact ih rest visited u hu
      | false =>
        have hne : u ≠ url := by
          intro he
          exact contains_false_not_mem hv (he ▸ hu)
        have hu' : u ∈ visited ++ [url] := List.mem_append.mpr (Or.inl hu)
        cases hf : w.fetch url with
        | ok hrefs =>
          cases hpl : processLinks w root rootDomain fuzzy visited (find_links hrefs) rest with
          | error evs =>
            rw [crawlLoop_ok_abort hv hf hpl]
            have hpe : plEvents (processLinks w root rootDomain fuzzy visited
                (find_links hrefs) rest) = evs := by rw [hpl]; rfl
            obtain ⟨pf, pp, pa, _⟩ :=
              plEvents_not_visited w root rootDomain fuzzy visited (find_links hrefs) rest hu
            rw [hpe] at pf pp pa
            refine ⟨?_, ?_, ?_⟩ <;> intro hmem <;>
              rcases List.mem_cons.mp hmem with he | hmem'
            · exact hne (by simpa using he)
            · exact pf hmem'
            · simp at he
            · exact pp hmem'
            · simp at he
            · exact pa hmem'
          | ok p =>
            obtain ⟨tv2, evs⟩ := p
            rw [crawlLoop_ok hv hf hpl, prepend_events]
            have hpe : plEvents (processLinks w root rootDomain fuzzy visited
                (find_links hrefs) rest) = evs := by rw [hpl]; rfl
            obtain ⟨pf, pp, pa, _⟩ :=
              plEvents_not_visited w root rootDomain fuzzy visited (find_links hrefs) rest hu
            rw [hpe] at pf pp pa
            obtain ⟨rf, rp, ra⟩ := ih tv2 (visited ++ [url]) u hu'
            refine ⟨?_, ?_, ?_⟩ <;> intro hmem <;>
              rcases List.mem_append.mp hmem with hmem' | hrest
            · rcases List.mem_cons.mp hmem' with he | hmem''
              · exact hne (by simpa using he)
              · rcases List.mem_append.mp hmem'' with h'' | h''
                · exact pf h''
                · simp at h''
            · exact rf hrest
            · rcases List.mem_cons.mp hmem' with he | hmem''
              · simp at he
              · rcases List.mem_append.mp hmem'' with h'' | h''
                · exact pp h''
                · simp at h''
            · exact rp hrest
            · rcases List.mem_cons.mp hmem' with he | hmem''
              · simp at he
              · rcases List.mem_append.mp hmem'' with h'' | h''
                · exact pa h''
                · exact hne (by simpa using h'')
            · exact ra hrest
        | notFound =>
          rw [crawlLoop_notFound hv hf, prepend_events]
          obtain ⟨rf, rp, ra⟩ := ih rest (visited ++ [url]) u hu'
          have hlog : ∀ e, e ∈ (if w.sendFails (ChanMsg.found url) then
              [Event.logSendError (ChanMsg.found url)] else []) →
              ∃ m, e = Event.logSendError m := by
            intro e he
            split at he
            · exact ⟨ChanMsg.found url, List.mem_singleton.mp he⟩
            · exact absurd he (by simp)
          refine ⟨?_, ?_, ?_⟩ <;> intro hmem <;>
            rcases List.mem_append.mp hmem with hmem' | hrest
          · rcases List.mem_cons.mp hmem' with he | hmem''
            · exact hne (by simpa using he)
            · rcases List.mem_cons.mp hmem'' with he | hmem'''
              · simp at he
              · rcases List.mem_append.mp hmem''' with h'' | h''
                · obtain ⟨m, hm⟩ := hlog _ h''
                  simp at hm
                · simp at h''
          · exact rf hrest
          · rcases List.mem_cons.mp hmem' with he | hmem''
            · simp at he
            · rcases List.mem_cons.mp hmem'' with he | hmem'''
              · simp at he
              · rcases List.mem_append.mp hmem''' with h'' | h''
                · obtain ⟨m, hm⟩ := hlog _ h''
                  simp at hm
                · simp at h''
          · exact rp hrest
          · rcases List.mem_cons.mp hmem' with he | hmem''
            · simp at he
            · rcases List.mem_cons.mp hmem'' with he | hmem'''
              · simp at he
              · rcases List.mem_append.mp hmem''' with h'' | h''
                · obtain ⟨m, hm⟩ := hlog _ h''
                  simp at hm
                · exact hne (by simpa using h'')
          · exact ra hrest
        | otherError =>
          rw [crawlLoop_otherError hv hf]
          refine ⟨?_, ?_, ?_⟩ <;> intro hmem <;>
            rcases List.mem_singleton.mp hmem with he
          · exact hne (by simpa using he)
          · simp at he
          · simp at he

/-- Every event of the link loop is a resolution or a frontier push. -/
theorem plEvents_only_resolve_push (w : World) (root : Url) (rootDomain : String)
    (fuzzy : Option String) (visited links toVisit : List String) :
    ∀ e ∈ plEvents (processLinks w root rootDomain fuzzy visited links toVisit),
      (∃ b l, e = Event.resolve b l) ∨ (∃ u, e = Event.pushFrontier u) := by
  intro e he
  rcases processLinks_events w root rootDomain fuzzy visited links toVisit _ he with
    ⟨l, _, rfl⟩ | ⟨u, l, _, _, rfl⟩
  · exact Or.inl ⟨root, l, rfl⟩
  · exact Or.inr ⟨u, rfl⟩

/-- The visited discipline holds for the events of every crawl-loop run:
once a URL's visited-addition has happened, the log never fetches it or
pushes it again. -/
theorem crawlLoop_neav (w : World) (root : Url) (rootDomain : String)
    (fuzzy : Option String) :
    ∀ (n : Nat) (toVisit visited : List String),
      NoEventAfterVisit (crawlLoop w root rootDomain fuzzy n toVisit visited).events := by
  intro n
  induction n with
  | zero =>
    intro toVisit visited
    rw [crawlLoop_zero]
    exact neav_of_no_addVisited (by intro u hmem; simp [CrawlResult.events] at hmem)
  | succ n ih =>
    intro toVisit visited
    cases toVisit with
    | nil =>
      rw [crawlLoop_nil]
      refine neav_of_no_addVisited ?_
      intro u hmem
      rcases doneEvents_shape w _ hmem with ⟨m, h | h⟩ <;> simp at h
    | cons url rest =>
      cases hv : visited.contains url with
      | true =>
        rw [crawlLoop_skip hv]
        exact ih rest visited
      | false =>
        cases hf : w.fetch url with
        | ok hrefs =>
          cases hpl : processLinks w root rootDomain fuzzy visited (find_links hrefs) rest with
          | error evs =>
            rw [crawlLoop_ok_abort hv hf hpl]
            have hpe : plEvents (processLinks w root rootDomain fuzzy visited
                (find_links hrefs) rest) = evs := by rw [hpl]; rfl
            refine neav_of_no_addVisited ?_
            intro v hmem
            rcases List.mem_cons.mp hmem with he | hmem'
            · simp at he
            · rcases plEvents_only_resolve_push w root rootDomain fuzzy visited
                (find_links hrefs) rest _ (hpe ▸ hmem') with ⟨b, l, h⟩ | ⟨u', h⟩ <;>
                simp at h
          | ok p =>
            obtain ⟨tv2, evs⟩ := p
            rw [crawlLoop_ok hv hf hpl, prepend_events]
            have hpe : plEvents (processLinks w root rootDomain fuzzy visited
                (find_links hrefs) rest) = evs := by rw [hpl]; rfl
            have hnoadd : ∀ v, Event.addVisited v ∉ (Event.fetch url :: evs) := by
              intro v hmem
              rcases List.mem_cons.mp hmem with he | hmem'
              · simp at he
              · rcases plEvents_only_resolve_push w root rootDomain fuzzy visited
                  (find_links hrefs) rest _ (hpe ▸ hmem') with ⟨b, l, h⟩ | ⟨u', h⟩ <;>
                  simp at h
            refine neav_append (neav_snoc url hnoadd) (ih tv2 (visited ++ [url])) ?_
            intro v hv'
            have hvurl : v = url := by
              rcases List.mem_cons.mp hv' with he | hv2
              · simp at he
              rcases List.mem_append.mp hv2 with hmem' | hmem'
              · exact absurd hmem' (by
                  intro hc
                  exact hnoadd v (List.mem_cons_of_mem _ hc))
              · simpa using hmem'
            rw [hvurl]
            obtain ⟨hf', hp', _⟩ := crawlLoop_visited_frozen w root rootDomain fuzzy
              n tv2 (visited ++ [url]) url (List.mem_append.mpr (Or.inr (List.mem_singleton.mpr rfl)))
            exact ⟨hf', hp'⟩
        | notFound =>
          rw [crawlLoop_notFound hv hf, prepend_events]
          have hnoadd : ∀ v, Event.addVisited v ∉
              (Event.fetch url :: Event.send (ChanMsg.found url) ::
                (if w.sendFails (ChanMsg.found url) then
                  [Event.logSendError (ChanMsg.found url)] else [])) := by
            intro v hmem
            rcases List.mem_cons.mp hmem with he | hmem'
            · simp at he
            rcases List.mem_cons.mp hmem' with he | hmem''
            · simp at he
            · split at hmem''
              · rcases List.mem_singleton.mp hmem'' with he
                simp at he
              · exact absurd hmem'' (by simp)
          refine neav_append (neav_snoc url hnoadd) (ih rest (visited ++ [url])) ?_
          intro v hv'
          have hvurl : v = url := by
            rcases List.mem_cons.mp hv' with he | hv2
            · simp at he
            rcases List.mem_cons.mp hv2 with he | hv3
            · simp at he
            rcases List.mem_append.mp hv3 with hmem' | hmem'
            · exact absurd hmem' (by
                intro hc
                exact hnoadd v (List.mem_cons_of_mem _ (List.mem_cons_of_mem _ hc)))
            · simpa using hmem'
          rw [hvurl]
          obtain ⟨hf', hp', _⟩ := crawlLoop_visited_frozen w root rootDomain fuzzy
            n rest (visited ++ [url]) url (List.mem_append.mpr (Or.inr (List.mem_singleton.mpr rfl)))
          exact ⟨hf', hp'⟩
        | otherError =>
          rw [crawlLoop_otherError hv hf]
          refine neav_of_no_addVisited ?_
          intro v hmem
          rcases List.mem_singleton.mp hmem with he
          simp at he

/-- Every href surviving the `find_links` filter is non-denied. -/
theorem find_links_not_denied (hrefs : List String) :
    ∀ l ∈ find_links hrefs, isDeniedLink l = false := by
  intro l hl
  rw [find_links] at hl
  obtain ⟨_, hcond⟩ := List.mem_filter.mp hl
  rw [Bool.and_eq_true, Bool.not_eq_true', Bool.not_eq_true'] at hcond
  rw [isDeniedLink, Bool.or_eq_false_iff]
  exact ⟨hcond.1, hcond.2⟩

/-- A resolve/push-only log contains no channel message. -/
theorem sentMsgs_eq_nil {evs : List Event}
    (h : ∀ e ∈ evs, (∃ b l, e = Event.resolve b l) ∨ ∃ u, e = Event.pushFrontier u) :
    sentMsgs evs = [] := by
  rw [sentMsgs, List.filterMap_eq_nil_iff]
  intro e he
  rcases h e he with ⟨b, l, rfl⟩ | ⟨u, rfl⟩ <;> rfl

/-- A resolve/push-only log contains no fetch. -/
theorem fetchedUrls_eq_nil {evs : List Event}
    (h : ∀ e ∈ evs, (∃ b l, e = Event.resolve b l) ∨ ∃ u, e = Event.pushFrontier u) :
    fetchedUrls evs = [] := by
  rw [fetchedUrls, List.filterMap_eq_nil_iff]
  intro e he
  rcases h e he with ⟨b, l, rfl⟩ | ⟨u, rfl⟩ <;> rfl

/-- A resolve/push-only log contains no visited-addition. -/
theorem visitedAdds_eq_nil {evs : List Event}
    (h : ∀ e ∈ evs, (∃ b l, e = Event.resolve b l) ∨ ∃ u, e = Event.pushFrontier u) :
    visitedAdds evs = [] := by
  rw [visitedAdds, List.filterMap_eq_nil_iff]
  intro e he
  rcases h e he with ⟨b, l, rfl⟩ | ⟨u, rfl⟩ <;> rfl

/-- The completion path sends exactly the sentinel. -/
theorem sentMsgs_doneEvents (w : World) : sentMsgs (doneEvents w) = [ChanMsg.done] := by
  rw [doneEvents]
  split <;> rfl

/-- The completion path fetches nothing. -/
theorem fetchedUrls_doneEvents (w : World) : fetchedUrls (doneEvents w) = [] := by
  rw [doneEvents]
  split <;> rfl

/-- The completion path adds nothing to the visited list. -/
theorem visitedAdds_doneEvents (w : World) : visitedAdds (doneEvents w) = [] := by
  rw [doneEvents]
  split <;> rfl

/-!
Computation rules for the event-log extractors.
-/

theorem visitedAdds_nil : visitedAdds [] = [] := rfl

theorem visitedAdds_append (a b : List Event) :
    visitedAdds (a ++ b) = visitedAdds a ++ visitedAdds b :=
  List.filterMap_append a b _

theorem visitedAdds_fetch (u : String) (l : List Event) :
    visitedAdds (Event.fetch u :: l) = visitedAdds l := rfl

theorem visitedAdds_resolve (b : Url) (s : String) (l : List Event) :
    visitedAdds (Event.resolve b s :: l) = visitedAdds l := rfl

theorem visitedAdds_push (u : String) (l : List Event) :
    visitedAdds (Event.pushFrontier u :: l) = visitedAdds l := rfl

theorem visitedAdds_add (u : String) (l : List Event) :
    visitedAdds (Event.addVisited u :: l) = u :: visitedAdds l := rfl

theorem visitedAdds_send (m : ChanMsg) (l : List Event) :
    visitedAdds (Event.send m :: l) = visitedAdds l := rfl

theorem visitedAdds_log (m : ChanMsg) (l : List Event) :
    visitedAdds (Event.logSendError m :: l) = visitedAdds l := rfl

theorem fetchedUrls_nil : fetchedUrls [] = [] := rfl

theorem fetchedUrls_append (a b : List Event) :
    fetchedUrls (a ++ b) = fetchedUrls a ++ fetchedUrls b :=
  List.filterMap_append a b _

theorem fetchedUrls_fetch (u : String) (l : List Event) :
    fetchedUrls (Event.fetch u :: l) = u :: fetchedUrls l := rfl

theorem fetchedUrls_resolve (b : Url) (s : String) (l : List Event) :
    fetchedUrls (Event.resolve b s :: l) = fetchedUrls l := rfl

theorem fetchedUrls_push (u : String) (l : List Event) :
    fetchedUrls (Event.pushFrontier u :: l) = fetchedUrls l := rfl

theorem fetchedUrls_add (u : String) (l : List Event) :
    fetchedUrls (Event.addVisited u :: l) = fetchedUrls l := rfl

theorem fetchedUrls_send (m : ChanMsg) (l : List Event) :
    fetchedUrls (Event.send m :: l) = fetchedUrls l := rfl

theorem fetchedUrls_log (m : ChanMsg) (l : List Event) :
    fetchedUrls (Event.logSendError m :: l) = fetchedUrls l := rfl

theorem sentMsgs_nil : sentMsgs [] = [] := rfl

theorem sentMsgs_append (a b : List Event) :
    sentMsgs (a ++ b) = sentMsgs a ++ sentMsgs b :=
  List.filterMap_append a b _

theorem sentMsgs_fetch (u : String) (l : List Event) :
    sentMsgs (Event.fetch u :: l) = sentMsgs l := rfl

theorem sentMsgs_resolve (b : Url) (s : String) (l : List Event) :
    sentMsgs (Event.resolve b s :: l) = sentMsgs l := rfl

theorem sentMsgs_push (u : String) (l : List Event) :
    sentMsgs (Event.pushFrontier u :: l) = sentMsgs l := rfl

theorem sentMsgs_add (u : String) (l : List Event) :
    sentMsgs (Event.addVisited u :: l) = sentMsgs l := rfl

theorem sentMsgs_send (m : ChanMsg) (l : List Event) :
    sentMsgs (Event.send m :: l) = m :: sentMsgs l := rfl

theorem sentMsgs_log (m : ChanMsg) (l : List Event) :
    sentMsgs (Event.logSendError m :: l) = sentMsgs l := rfl

theorem sentMsgs_iflog (c : Bool) (m : ChanMsg) :
    sentMsgs (if c then [Event.logSendError m] else []) = [] := by
  split <;> rfl

theorem visitedAdds_iflog (c : Bool) (m : ChanMsg) :
    visitedAdds (if c then [Event.logSendError m] else []) = [] := by
  split <;> rfl

theorem fetchedUrls_iflog (c : Bool) (m : ChanMsg) :
    fetchedUrls (if c then [Event.logSendError m] else []) = [] := by
  split <;> rfl

theorem foundUrls_nil : foundUrls [] = [] := rfl

theorem foundUrls_append (a b : List ChanMsg) :
    foundUrls (a ++ b) = foundUrls a ++ foundUrls b :=
  List.filterMap_append a b _

theorem foundUrls_found (u : String) (l : List ChanMsg) :
    foundUrls (ChanMsg.found u :: l) = u :: foundUrls l := rfl

theorem foundUrls_done (l : List ChanMsg) :
    foundUrls (ChanMsg.done :: l) = foundUrls l := rfl

/-- Log of a finished result. -/
theorem events_finished (evs : List Event) : (CrawlResult.finished evs).events = evs := rfl

/-- Log of an aborted result. -/
theorem events_aborted (evs : List Event) : (CrawlResult.aborted evs).events = evs := rfl

/-- Log of an out-of-fuel result. -/
theorem events_outOfFuel (evs : List Event) : (CrawlResult.outOfFuel evs).events = evs := rfl

/-- Visited-additions of a run are distinct and concern only URLs that were
not already visited at the start of the run. -/
theorem crawlLoop_visitedAdds (w : World) (root : Url) (rootDomain : String)
    (fuzzy : Option String) :
    ∀ (n : Nat) (toVisit visited : List String),
      (visitedAdds (crawlLoop w root rootDomain fuzzy n toVisit visited).events).Nodup ∧
      ∀ u ∈ visitedAdds (crawlLoop w root rootDomain fuzzy n toVisit visited).events,
        u ∉ visited := by
  intro n
  induction n with
  | zero =>
    intro toVisit visited
    rw [crawlLoop_zero, events_outOfFuel, visitedAdds_nil]
    exact ⟨List.nodup_nil, fun u hu => absurd hu (List.not_mem_nil u)⟩
  | succ n ih =>
    intro toVisit visited
    cases toVisit with
    | nil =>
      rw [crawlLoop_nil, events_finished, visitedAdds_doneEvents]
      exact ⟨List.nodup_nil, fun u hu => absurd hu (List.not_mem_nil u)⟩
    | cons url rest =>
      cases hv : visited.contains url with
      | true =>
        rw [crawlLoop_skip hv]
        exact ih rest visited
      | false =>
        have hurlv : url ∉ visited := contains_false_not_mem hv
        cases hf : w.fetch url with
        | ok hrefs =>
          cases hpl : processLinks w root rootDomain fuzzy visited (find_links hrefs) rest with
          | error evs =>
            rw [crawlLoop_ok_abort hv hf hpl, events_aborted]
            have hpe : plEvents (processLinks w root rootDomain fuzzy visited
                (find_links hrefs) rest) = evs := by rw [hpl]; rfl
            have hshape := plEvents_only_resolve_push w root rootDomain fuzzy visited
              (find_links hrefs) rest
            rw [hpe] at hshape
            have hnil := visitedAdds_eq_nil hshape
            rw [visitedAdds_fetch, hnil]
            exact ⟨List.nodup_nil, fun u hu => absurd hu (List.not_mem_nil u)⟩
          | ok p =>
            obtain ⟨tv2, evs⟩ := p
            rw [crawlLoop_ok hv hf hpl, prepend_events]
            have hpe : plEvents (processLinks w root rootDomain fuzzy visited
                (find_links hrefs) rest) = evs := by rw [hpl]; rfl
            have hshape := plEvents_only_resolve_push w root rootDomain fuzzy visited
              (find_links hrefs) rest
            rw [hpe] at hshape
            have hnil := visitedAdds_eq_nil hshape
            obtain ⟨ihn, ihm⟩ := ih tv2 (visited ++ [url])
            simp only [visitedAdds_append, visitedAdds_fetch, visitedAdds_add,
              visitedAdds_nil, hnil, List.cons_append, List.nil_append]
            refine ⟨List.nodup_cons.mpr ⟨?_, ihn⟩, ?_⟩
            · intro hmem
              exact ihm url hmem (List.mem_append.mpr (Or.inr (List.mem_singleton.mpr rfl)))
            · intro u hu
              rcases List.mem_cons.mp hu with rfl | hu2
              · exact hurlv
              · intro hcon
                exact ihm u hu2 (List.mem_append.mpr (Or.inl hcon))
        | notFound =>
          rw [crawlLoop_notFound hv hf, prepend_events]
          obtain ⟨ihn, ihm⟩ := ih rest (visited ++ [url])
          simp only [visitedAdds_append, visitedAdds_fetch, visitedAdds_send,
            visitedAdds_iflog, visitedAdds_add, visitedAdds_nil, List.cons_append,
            List.nil_append]
          refine ⟨List.nodup_cons.mpr ⟨?_, ihn⟩, ?_⟩
          · intro hmem
            exact ihm url hmem (List.mem_append.mpr (Or.inr (List.mem_singleton.mpr rfl)))
          · intro u hu
            rcases List.mem_cons.mp hu with rfl | hu2
            · exact hurlv
            · intro hcon
              exact ihm u hu2 (List.mem_append.mpr (Or.inl hcon))
        | otherError =>
          rw [crawlLoop_otherError hv hf, events_aborted, visitedAdds_fetch,
            visitedAdds_nil]
          exact ⟨List.nodup_nil, fun u hu => absurd hu (List.not_mem_nil u)⟩

/-- Fetches of a run are distinct and concern only URLs that were not already
visited at the start of the run. -/
theorem crawlLoop_fetched (w : World) (root : Url) (rootDomain : String)
    (fuzzy : Option String) :
    ∀ (n : Nat) (toVisit visited : List String),
      (fetchedUrls (crawlLoop w root rootDomain fuzzy n toVisit visited).events).Nodup ∧
      ∀ u ∈ fetchedUrls (crawlLoop w root rootDomain fuzzy n toVisit visited).events,
        u ∉ visited := by
  intro n
  induction n with
  | zero =>
    intro toVisit visited
    rw [crawlLoop_zero, events_outOfFuel, fetchedUrls_nil]
    exact ⟨List.nodup_nil, fun u hu => absurd hu (List.not_mem_nil u)⟩
  | succ n ih =>
    intro toVisit visited
    cases toVisit with
    | nil =>
      rw [crawlLoop_nil, events_finished, fetchedUrls_doneEvents]
      exact ⟨List.nodup_nil, fun u hu => absurd hu (List.not_mem_nil u)⟩
    | cons url rest =>
      cases hv : visited.contains url with
      | true =>
        rw [crawlLoop_skip hv]
        exact ih rest visited
      | false =>
        have hurlv : url ∉ visited := contains_false_not_mem hv
        cases hf : w.fetch url with
        | ok hrefs =>
          cases hpl : processLinks w root rootDomain fuzzy visited (find_links hrefs) rest with
          | error evs =>
            rw [crawlLoop_ok_abort hv hf hpl, events_aborted]
            have hpe : plEvents (processLinks w root rootDomain fuzzy visited
                (find_links hrefs) rest) = evs := by rw [hpl]; rfl
            have hshape := plEvents_only_resolve_push w root rootDomain fuzzy visited
              (find_links hrefs) rest
            rw [hpe] at hshape
            rw [fetchedUrls_fetch, fetchedUrls_eq_nil hshape]
            refine ⟨List.nodup_singleton url, ?_⟩
            intro u hu
            rcases List.mem_singleton.mp hu with rfl
            exact hurlv
          | ok p =>
            obtain ⟨tv2, evs⟩ := p
            rw [crawlLoop_ok hv hf hpl, prepend_events]
            have hpe : plEvents (processLinks w root rootDomain fuzzy visited
                (find_links hrefs) rest) = evs := by rw [hpl]; rfl
            have hshape := plEvents_only_resolve_push w root rootDomain fuzzy visited
              (find_links hrefs) rest
            rw [hpe] at hshape
            obtain ⟨ihn, ihm⟩ := ih tv2 (visited ++ [url])
            simp only [fetchedUrls_append, fetchedUrls_fetch, fetchedUrls_add,
              fetchedUrls_nil, fetchedUrls_eq_nil hshape, List.cons_append,
              List.nil_append, List.append_nil]
            refine ⟨List.nodup_cons.mpr ⟨?_, ihn⟩, ?_⟩
            · intro hmem
              exact ihm url hmem (List.mem_append.mpr (Or.inr (List.mem_singleton.mpr rfl)))
            · intro u hu
              rcases List.mem_cons.mp hu with rfl | hu2
              · exact hurlv
              · intro hcon
                exact ihm u hu2 (List.mem_append.mpr (Or.inl hcon))
        | notFound =>
          rw [crawlLoop_notFound hv hf, prepend_events]
          obtain ⟨ihn, ihm⟩ := ih rest (visited ++ [url])
          simp only [fetchedUrls_append, fetchedUrls_fetch, fetchedUrls_send,
            fetchedUrls_iflog, fetchedUrls_add, fetchedUrls_nil, List.cons_append,
            List.nil_append, List.append_nil]
          refine ⟨List.nodup_cons.mpr ⟨?_, ihn⟩, ?_⟩
          · intro hmem
            exact ihm url hmem (List.mem_append.mpr (Or.inr (List.mem_singleton.mpr rfl)))
          · intro u hu
            rcases List.mem_cons.mp hu with rfl | hu2
            · exact hurlv
            · intro hcon
              exact ihm u hu2 (List.mem_append.mpr (Or.inl hcon))
        | otherError =>
          rw [crawlLoop_otherError hv hf, events_aborted, fetchedUrls_fetch,
            fetchedUrls_nil]
          refine ⟨List.nodup_singleton url, ?_⟩
          intro u hu
          rcases List.mem_singleton.mp hu with rfl
          exact hurlv

/-- Reported 404 URLs of a run are distinct and concern only URLs that were
not already visited at the start of the run. -/
theorem crawlLoop_found (w : World) (root : Url) (rootDomain : String)
    (fuzzy : Option String) :
    ∀ (n : Nat) (toVisit visited : List String),
      (foundUrls (sentMsgs (crawlLoop w root rootDomain fuzzy n toVisit visited).events)).Nodup ∧
      ∀ u ∈ foundUrls (sentMsgs (crawlLoop w root rootDomain fuzzy n toVisit visited).events),
        u ∉ visited := by
  intro n
  induction n with
  | zero =>
    intro toVisit visited
    rw [crawlLoop_zero, events_outOfFuel, sentMsgs_nil, foundUrls_nil]
    exact ⟨List.nodup_nil, fun u hu => absurd hu (List.not_mem_nil u)⟩
  | succ n ih =>
    intro toVisit visited
    cases toVisit with
    | nil =>
      rw [crawlLoop_nil, events_finished, sentMsgs_doneEvents, foundUrls_done,
        foundUrls_nil]
      exact ⟨List.nodup_nil, fun u hu => absurd hu (List.not_mem_nil u)⟩
    | cons url rest =>
      cases hv : visited.contains url with
      | true =>
        rw [crawlLoop_skip hv]
        exact ih rest visited
      | false =>
        have hurlv : url ∉ visited := contains_false_not_mem hv
        cases hf : w.fetch url with
        | ok hrefs =>
          cases hpl : processLinks w root rootDomain fuzzy visited (find_links hrefs) rest with
          | error evs =>
            rw [crawlLoop_ok_abort hv hf hpl, events_aborted]
            have hpe : plEvents (processLinks w root rootDomain fuzzy visited
                (find_links hrefs) rest) = evs := by rw [hpl]; rfl
            have hshape := plEvents_only_resolve_push w root rootDomain fuzzy visited
              (find_links hrefs) rest
            rw [hpe] at hshape
            rw [sentMsgs_fetch, sentMsgs_eq_nil hshape, foundUrls_nil]
            exact ⟨List.nodup_nil, fun u hu => absurd hu (List.not_mem_nil u)⟩
          | ok p =>
            obtain ⟨tv2, evs⟩ := p
            rw [crawlLoop_ok hv hf hpl, prepend_events]
            have hpe : plEvents (processLinks w root rootDomain fuzzy visited
                (find_links hrefs) rest) = evs := by rw [hpl]; rfl
            have hshape := plEvents_only_resolve_push w root rootDomain fuzzy visited
              (find_links hrefs) rest
            rw [hpe] at hshape
            obtain ⟨ihn, ihm⟩ := ih tv2 (visited ++ [url])
            simp only [sentMsgs_append, sentMsgs_fetch, sentMsgs_add, sentMsgs_nil,
              sentMsgs_eq_nil hshape, List.nil_append, List.append_nil]
            exact ⟨ihn, fun u hu hcon => ihm u hu (List.mem_append.mpr (Or.inl hcon))⟩
        | notFound =>
          rw [crawlLoop_notFound hv hf, prepend_events]
          obtain ⟨ihn, ihm⟩ := ih rest (visited ++ [url])
          simp only [sentMsgs_append, sentMsgs_fetch, sentMsgs_send, sentMsgs_iflog,
            sentMsgs_add, sentMsgs_nil, List.nil_append, List.append_nil,
            List.cons_append, foundUrls_found]
          refine ⟨List.nodup_cons.mpr ⟨?_, ihn⟩, ?_⟩
          · intro hmem
            exact ihm url hmem (List.mem_append.mpr (Or.inr (List.mem_singleton.mpr rfl)))
          · intro u hu
            rcases List.mem_cons.mp hu with rfl | hu2
            · exact hurlv
            · intro hcon
              exact ihm u hu2 (List.mem_append.mpr (Or.inl hcon))
        | otherError =>
          rw [crawlLoop_otherError hv hf, events_aborted, sentMsgs_fetch, sentMsgs_nil,
            foundUrls_nil]
          exact ⟨List.nodup_nil, fun u hu => absurd hu (List.not_mem_nil u)⟩

/-- Sentinel discipline of a run: a finished run's messages are some
`Found` messages followed by exactly one final `Done`; an aborted or
out-of-fuel run never sends `Done` at all. -/
theorem crawlLoop_done (w : World) (root : Url) (rootDomain : String)
    (fuzzy : Option String) :
    ∀ (n : Nat) (toVisit visited : List String),
      (∀ evs, crawlLoop w root rootDomain fuzzy n toVisit visited = .finished evs →
        ∃ M, sentMsgs evs = M ++ [ChanMsg.done] ∧ ChanMsg.done ∉ M) ∧
      (∀ evs, crawlLoop w root rootDomain fuzzy n toVisit visited = .aborted evs →
        ChanMsg.done ∉ sentMsgs evs) ∧
      (∀ evs, crawlLoop w root rootDomain fuzzy n toVisit visited = .outOfFuel evs →
        ChanMsg.done ∉ sentMsgs evs) := by
  intro n
  induction n with
  | zero =>
    intro toVisit visited
    rw [crawlLoop_zero]
    refine ⟨?_, ?_, ?_⟩ <;> intro evs heq
    · exact absurd heq (by simp)
    · exact absurd heq (by simp)
    · injection heq with h
      subst h
      rw [sentMsgs_nil]
      exact List.not_mem_nil _
  | succ n ih =>
    intro toVisit visited
    cases toVisit with
    | nil =>
      rw [crawlLoop_nil]
      refine ⟨?_, ?_, ?_⟩ <;> intro evs heq
      · injection heq with h
        subst h
        exact ⟨[], by rw [sentMsgs_doneEvents]; rfl, List.not_mem_nil _⟩
      · exact absurd heq (by simp)
      · exact absurd heq (by simp)
    | cons url rest =>
      cases hv : visited.contains url with
      | true =>
        rw [crawlLoop_skip hv]
        exact ih rest visited
      | false =>
        cases hf : w.fetch url with
        | ok hrefs =>
          cases hpl : processLinks w root rootDomain fuzzy visited (find_links hrefs) rest with
          | error pevs =>
            rw [crawlLoop_ok_abort hv hf hpl]
            have hpe : plEvents (processLinks w root rootDomain fuzzy visited
                (find_links hrefs) rest) = pevs := by rw [hpl]; rfl
            have hshape := plEvents_only_resolve_push w root rootDomain fuzzy visited
              (find_links hrefs) rest
            rw [hpe] at hshape
            refine ⟨?_, ?_, ?_⟩ <;> intro evs heq
            · exact absurd heq (by simp)
            · injection heq with h
              subst h
              rw [sentMsgs_fetch, sentMsgs_eq_nil hshape]
              exact List.not_mem_nil _
            · exact absurd heq (by simp)
          | ok p =>
            obtain ⟨tv2, pevs⟩ := p
            rw [crawlLoop_ok hv hf hpl]
            have hpe : plEvents (processLinks w root rootDomain fuzzy visited
                (find_links hrefs) rest) = pevs := by rw [hpl]; rfl
            have hshape := plEvents_only_resolve_push w root rootDomain fuzzy visited
              (find_links hrefs) rest
            rw [hpe] at hshape
            have hpre : sentMsgs (Event.fetch url :: pevs ++ [Event.addVisited url]) = [] := by
              simp only [sentMsgs_append, sentMsgs_fetch, sentMsgs_add, sentMsgs_nil,
                sentMsgs_eq_nil hshape, List.nil_append, List.append_nil]
            obtain ⟨ih1, ih2, ih3⟩ := ih tv2 (visited ++ [url])
            cases hR : crawlLoop w root rootDomain fuzzy n tv2 (visited ++ [url]) with
            | finished evs' =>
              refine ⟨?_, ?_, ?_⟩ <;> intro evs heq <;>
                simp only [CrawlResult.prepend] at heq
              · injection heq with h
                subst h
                obtain ⟨M, hM, hnot⟩ := ih1 evs' hR
                refine ⟨M, ?_, hnot⟩
                rw [sentMsgs_append, hpre, List.nil_append, hM]
              · exact absurd heq (by simp)
              · exact absurd heq (by simp)
            | aborted evs' =>
              refine ⟨?_, ?_, ?_⟩ <;> intro evs heq <;>
                simp only [CrawlResult.prepend] at heq
              · exact absurd heq (by simp)
              · injection heq with h
                subst h
                rw [sentMsgs_append, hpre, List.nil_append]
                exact ih2 evs' hR
              · exact absurd heq (by simp)
            | outOfFuel evs' =>
              refine ⟨?_, ?_, ?_⟩ <;> intro evs heq <;>
                simp only [CrawlResult.prepend] at heq
              · exact absurd heq (by simp)
              · exact absurd heq (by simp)
              · injection heq with h
                subst h
                rw [sentMsgs_append, hpre, List.nil_append]
                exact ih3 evs' hR
        | notFound =>
          rw [crawlLoop_notFound hv hf]
          have hpre : sentMsgs (Event.fetch url :: Event.send (ChanMsg.found url) ::
              ((if w.sendFails (ChanMsg.found url) then
                  [Event.logSendError (ChanMsg.found url)]
                else []) ++ [Event.addVisited url])) = [ChanMsg.found url] := by
            simp only [sentMsgs_fetch, sentMsgs_send, sentMsgs_append, sentMsgs_iflog,
              sentMsgs_add, sentMsgs_nil, List.nil_append, List.append_nil]
          obtain ⟨ih1, ih2, ih3⟩ := ih rest (visited ++ [url])
          cases hR : crawlLoop w root rootDomain fuzzy n rest (visited ++ [url]) with
          | finished evs' =>
            refine ⟨?_, ?_, ?_⟩ <;> intro evs heq <;>
              simp only [CrawlResult.prepend] at heq
            · injection heq with h
              subst h
              obtain ⟨M, hM, hnot⟩ := ih1 evs' hR
              refine ⟨ChanMsg.found url :: M, ?_, ?_⟩
              · rw [sentMsgs_append, hpre, hM]
                rfl
              · intro hmem
                rcases List.mem_cons.mp hmem with h' | h'
                · exact absurd h' (by simp)
                · exact hnot h'
            · exact absurd heq (by simp)
            · exact absurd heq (by simp)
          | aborted evs' =>
            refine ⟨?_, ?_, ?_⟩ <;> intro evs heq <;>
              simp only [CrawlResult.prepend] at heq
            · exact absurd heq (by simp)
            · injection heq with h
              subst h
              rw [sentMsgs_append, hpre]
              intro hmem
              rcases List.mem_cons.mp hmem with h' | h'
              · exact absurd h' (by simp)
              · exact ih2 evs' hR h'
            · exact absurd heq (by simp)
          | outOfFuel evs' =>
            refine ⟨?_, ?_, ?_⟩ <;> intro evs heq <;>
              simp only [CrawlResult.prepend] at heq
            · exact absurd heq (by simp)
            · exact absurd heq (by simp)
            · injection heq with h
              subst h
              rw [sentMsgs_append, hpre]
              intro hmem
              rcases List.mem_cons.mp hmem with h' | h'
              · exact absurd h' (by simp)
              · exact ih3 evs' hR h'
        | otherError =>
          rw [crawlLoop_otherError hv hf]
          refine ⟨?_, ?_, ?_⟩ <;> intro evs heq
          · exact absurd heq (by simp)
          · injection heq with h
            subst h
            rw [sentMsgs_fetch, sentMsgs_nil]
            exact List.not_mem_nil _
          · exact absurd heq (by simp)

/-- Every frontier push of a link loop over filtered links concerns the
resolution of a non-denied href against the root. -/
theorem plEvents_push_prov (w : World) (root : Url) (rootDomain : String)
    (fuzzy : Option String) (visited : List String) (hrefs rest' : List String) :
    ∀ u, Event.pushFrontier u ∈
      plEvents (processLinks w root rootDomain fuzzy visited (find_links hrefs) rest') →
      Prov w root u := by
  intro u hmem
  rcases processLinks_events w root rootDomain fuzzy visited (find_links hrefs) rest'
    _ hmem with ⟨l, hl, he⟩ | ⟨u', l, hl, hla, he⟩
  · simp at he
  · injection he with he'
    subst he'
    rw [linkAction_ok_some_iff] at hla
    obtain ⟨abs, d, hjoin, _, _, _, hustr⟩ := hla
    exact Or.inr ⟨l, abs, find_links_not_denied hrefs l hl, hjoin, hustr⟩

/-- Every resolution event of a run uses the root URL as its base and a
non-denied href as its link. -/
theorem crawlLoop_resolve (w : World) (root : Url) (rootDomain : String)
    (fuzzy : Option String) :
    ∀ (n : Nat) (toVisit visited : List String) (b : Url) (l : String),
      Event.resolve b l ∈ (crawlLoop w root rootDomain fuzzy n toVisit visited).events →
      b = root ∧ isDeniedLink l = false := by
  intro n
  induction n with
  | zero =>
    intro toVisit visited b l hmem
    rw [crawlLoop_zero, events_outOfFuel] at hmem
    exact absurd hmem (List.not_mem_nil _)
  | succ n ih =>
    intro toVisit visited b l hmem
    cases toVisit with
    | nil =>
      rw [crawlLoop_nil, events_finished] at hmem
      rcases doneEvents_shape w _ hmem with ⟨m, h | h⟩ <;> simp at h
    | cons url rest =>
      cases hv : visited.contains url with
      | true =>
        rw [crawlLoop_skip hv] at hmem
        exact ih rest visited b l hmem
      | false =>
        have hpick : ∀ (hrefs rest' : List String),
            Event.resolve b l ∈
              plEvents (processLinks w root rootDomain fuzzy visited
                (find_links hrefs) rest') →
            b = root ∧ isDeniedLink l = false := by
          intro hrefs rest' hin
          rcases processLinks_events w root rootDomain fuzzy visited
            (find_links hrefs) rest' _ hin with ⟨l', hl', he⟩ | ⟨u', l', hl', _, he⟩
          · injection he with h1 h2
            subst h1
            subst h2
            exact ⟨rfl, find_links_not_denied hrefs l hl'⟩
          · simp at he
        cases hf : w.fetch url with
        | ok hrefs =>
          cases hpl : processLinks w root rootDomain fuzzy visited (find_links hrefs) rest with
          | error evs =>
            rw [crawlLoop_ok_abort hv hf hpl, events_aborted] at hmem
            have hpe : plEvents (processLinks w root rootDomain fuzzy visited
                (find_links hrefs) rest) = evs := by rw [hpl]; rfl
            rcases List.mem_cons.mp hmem with he | hmem'
            · simp at he
            · exact hpick hrefs rest (hpe ▸ hmem')
          | ok p =>
            obtain ⟨tv2, evs⟩ := p
            rw [crawlLoop_ok hv hf hpl, prepend_events] at hmem
            have hpe : plEvents (processLinks w root rootDomain fuzzy visited
                (find_links hrefs) rest) = evs := by rw [hpl]; rfl
            rcases List.mem_append.mp hmem with hmem' | hrest
            · rcases List.mem_append.mp ((List.mem_cons.mp hmem').elim
                (fun he => absurd he (by simp)) id) with h'' | h''
              · exact hpick hrefs rest (hpe ▸ h'')
              · exact absurd (List.mem_singleton.mp h'') (by simp)
            · exact ih tv2 (visited ++ [url]) b l hrest
        | notFound =>
          rw [crawlLoop_notFound hv hf, prepend_events] at hmem
          rcases List.mem_append.mp hmem with hmem' | hrest
          · rcases List.mem_cons.mp hmem' with he | hmem2
            · simp at he
            rcases List.mem_cons.mp hmem2 with he | hmem3
            · simp at he
            rcases List.mem_append.mp hmem3 with h'' | h''
            · split at h''
              · exact absurd (List.mem_singleton.mp h'') (by simp)
              · exact absurd h'' (List.not_mem_nil _)
            · exact absurd (List.mem_singleton.mp h'') (by simp)
          · exact ih rest (visited ++ [url]) b l hrest
        | otherError =>
          rw [crawlLoop_otherError hv hf, events_aborted] at hmem
          exact absurd (List.mem_singleton.mp hmem) (by simp)

/-- Provenance of every fetched or pushed URL of a run: assuming every
frontier entry is the root or the resolution of a non-denied href, every URL
the run fetches or pushes is as well. -/
theorem crawlLoop_prov (w : World) (root : Url) (rootDomain : String)
    (fuzzy : Option String) :
    ∀ (n : Nat) (toVisit visited : List String),
      (∀ u ∈ toVisit, Prov w root u) →
      ∀ u, (Event.fetch u ∈ (crawlLoop w root rootDomain fuzzy n toVisit visited).events ∨
            Event.pushFrontier u ∈ (crawlLoop w root rootDomain fuzzy n toVisit visited).events) →
        Prov w root u := by
  intro n
  induction n with
  | zero =>
    intro toVisit visited hpre u hmem
    rw [crawlLoop_zero, events_outOfFuel] at hmem
    rcases hmem with h | h <;> exact absurd h (List.not_mem_nil _)
  | succ n ih =>
    intro toVisit visited hpre u hmem
    cases toVisit with
    | nil =>
      rw [crawlLoop_nil, events_finished] at hmem
      rcases hmem with h | h <;>
        rcases doneEvents_shape w _ h with ⟨m, h' | h'⟩ <;> simp at h'
    | cons url rest =>
      cases hv : visited.contains url with
      | true =>
        rw [crawlLoop_skip hv] at hmem
        exact ih rest visited (fun v hvm => hpre v (List.mem_cons_of_mem _ hvm)) u hmem
      | false =>
        cases hf : w.fetch url with
        | ok hrefs =>
          cases hpl : processLinks w root rootDomain fuzzy visited (find_links hrefs) rest with
          | error evs =>
            rw [crawlLoop_ok_abort hv hf hpl, events_aborted] at hmem
            have hpe : plEvents (processLinks w root rootDomain fuzzy visited
                (find_links hrefs) rest) = evs := by rw [hpl]; rfl
            rcases hmem with h | h
            · rcases List.mem_cons.mp h with he | h'
              · injection he with he'
                exact he' ▸ hpre url (List.mem_cons_self _ _)
              · rcases processLinks_events w root rootDomain fuzzy visited
                  (find_links hrefs) rest _ (hpe ▸ h') with ⟨l, _, hee⟩ | ⟨u', l, _, _, hee⟩ <;>
                  simp at hee
            · rcases List.mem_cons.mp h with he | h'
              · simp at he
              · exact plEvents_push_prov w root rootDomain fuzzy visited hrefs rest u
                  (hpe ▸ h')
          | ok p =>
            obtain ⟨tv2, evs⟩ := p
            rw [crawlLoop_ok hv hf hpl, prepend_events] at hmem
            have hpe : plEvents (processLinks w root rootDomain fuzzy visited
                (find_links hrefs) rest) = evs := by rw [hpl]; rfl
            have hpre2 : ∀ v ∈ tv2, Prov w root v := by
              intro v hvm
              rcases processLinks_toVisit w root rootDomain fuzzy visited
                (find_links hrefs) rest tv2 evs hpl v hvm with hin | hpush
              · exact hpre v (List.mem_cons_of_mem _ hin)
              · exact plEvents_push_prov w root rootDomain fuzzy visited hrefs rest v
                  (hpe ▸ hpush)
            rcases hmem with h | h
            · rcases List.mem_append.mp h with h' | hrest
              · rcases List.mem_cons.mp h' with he | h''
                · injection he with he'
                  exact he' ▸ hpre url (List.mem_cons_self _ _)
                · rcases List.mem_append.mp h'' with h3 | h3
                  · rcases processLinks_events w root rootDomain fuzzy visited
                      (find_links hrefs) rest _ (hpe ▸ h3) with
                      ⟨l, _, hee⟩ | ⟨u', l, _, _, hee⟩ <;> simp at hee
                  · exact absurd (List.mem_singleton.mp h3) (by simp)
              · exact ih tv2 (visited ++ [url]) hpre2 u (Or.inl hrest)
            · rcases List.mem_append.mp h with h' | hrest
              · rcases List.mem_cons.mp h' with he | h''
                · simp at he
                · rcases List.mem_append.mp h'' with h3 | h3
                  · exact plEvents_push_prov w root rootDomain fuzzy visited hrefs rest u
                      (hpe ▸ h3)
                  · exact absurd (List.mem_singleton.mp h3) (by simp)
              · exact ih tv2 (visited ++ [url]) hpre2 u (Or.inr hrest)
        | notFound =>
          rw [crawlLoop_notFound hv hf, prepend_events] at hmem
          have hpre2 : ∀ v ∈ rest, Prov w root v :=
            fun v hvm => hpre v (List.mem_cons_of_mem _ hvm)
          have hknock : ∀ (x : Event), x ∈ (Event.fetch url ::
              Event.send (ChanMsg.found url) ::
                ((if w.sendFails (ChanMsg.found url) then
                    [Event.logSendError (ChanMsg.found url)]
                  else []) ++ [Event.addVisited url])) →
              x = Event.fetch url ∨ (∃ m, x = Event.send m) ∨
              (∃ m, x = Event.logSendError m) ∨ ∃ v, x = Event.addVisited v := by
            intro x hx
            rcases List.mem_cons.mp hx with he | hx2
            · exact Or.inl he
            rcases List.mem_cons.mp hx2 with he | hx3
            · exact Or.inr (Or.inl ⟨ChanMsg.found url, he⟩)
            rcases List.mem_append.mp hx3 with h3 | h3
            · split at h3
              · exact Or.inr (Or.inr (Or.inl ⟨ChanMsg.found url, List.mem_singleton.mp h3⟩))
              · exact absurd h3 (List.not_mem_nil _)
            · exact Or.inr (Or.inr (Or.inr ⟨url, List.mem_singleton.mp h3⟩))
          rcases hmem with h | h
          · rcases List.mem_append.mp h with h' | hrest
            · rcases hknock _ h' with he | ⟨m, he⟩ | ⟨m, he⟩ | ⟨v, he⟩
              · injection he with he'
                exact he' ▸ hpre url (List.mem_cons_self _ _)
              · simp at he
              · simp at he
              · simp at he
            · exact ih rest (visited ++ [url]) hpre2 u (Or.inl hrest)
          · rcases List.mem_append.mp h with h' | hrest
            · rcases hknock _ h' with he | ⟨m, he⟩ | ⟨m, he⟩ | ⟨v, he⟩ <;> simp at he
            · exact ih rest (visited ++ [url]) hpre2 u (Or.inr hrest)
        | otherError =>
          rw [crawlLoop_otherError hv hf, events_aborted] at hmem
          rcases hmem with h | h
          · injection List.mem_singleton.mp h with he'
            exact he' ▸ hpre url (List.mem_cons_self _ _)
          · exact absurd (List.mem_singleton.mp h) (by simp)

/-- When no sentinel is among the delivered messages (unexpected channel
closure), the supervisor still accumulates every reported URL. -/
theorem supervisorAcc_no_done (msgs : List ChanMsg) (h : ChanMsg.done ∉ msgs) :
    supervisorAcc msgs = foundUrls msgs := by
  induction msgs with
  | nil => rfl
  | cons m rest ih =>
    cases m with
    | found u =>
      rw [foundUrls_found]
      show u :: supervisorAcc rest = u :: foundUrls rest
      rw [ih (fun hc => h (List.mem_cons_of_mem _ hc))]
    | done => exact absurd (List.mem_cons_self _ _) h

/-- Resolve/push-only events keep the processing window open: they may be
inserted before any continuation while a page is being processed. -/
theorem wellFormed_shape_append {evs : List Event}
    (h : ∀ e ∈ evs, (∃ b l, e = Event.resolve b l) ∨ ∃ u, e = Event.pushFrontier u)
    {u : String} {rest : List Event} (hrest : WellFormedSteps (some u) rest) :
    WellFormedSteps (some u) (evs ++ rest) := by
  induction evs with
  | nil => exact hrest
  | cons e es ih =>
    rcases h e (List.mem_cons_self _ _) with ⟨b, l, rfl⟩ | ⟨v, rfl⟩
    · exact ⟨rfl, ih (fun e' he' => h e' (List.mem_cons_of_mem _ he'))⟩
    · exact ⟨rfl, ih (fun e' he' => h e' (List.mem_cons_of_mem _ he'))⟩

/-- A log of resolve/push-only events is well formed with a page open, even
when the run ends there (the abort case). -/
theorem wellFormed_shape_end {evs : List Event}
    (h : ∀ e ∈ evs, (∃ b l, e = Event.resolve b l) ∨ ∃ u, e = Event.pushFrontier u)
    (u : String) : WellFormedSteps (some u) evs := by
  induction evs with
  | nil => trivial
  | cons e es ih =>
    rcases h e (List.mem_cons_self _ _) with ⟨b, l, rfl⟩ | ⟨v, rfl⟩
    · exact ⟨rfl, ih (fun e' he' => h e' (List.mem_cons_of_mem _ he'))⟩
    · exact ⟨rfl, ih (fun e' he' => h e' (List.mem_cons_of_mem _ he'))⟩

/-- The completion path is well formed with no page open. -/
theorem wellFormed_doneEvents (w : World) : WellFormedSteps none (doneEvents w) := by
  show WellFormedSteps none (if w.sendFails ChanMsg.done then
    [Event.logSendError ChanMsg.done] else [])
  split <;> trivial

/-- Every run of the crawl loop satisfies the processing-window discipline:
each URL's resolutions and frontier pushes happen after its fetch and before
its visited-addition, and the visited-addition closes that URL's processing
before any further fetch. -/
theorem crawlLoop_wellFormed (w : World) (root : Url) (rootDomain : String)
    (fuzzy : Option String) :
    ∀ (n : Nat) (toVisit visited : List String),
      WellFormedSteps none (crawlLoop w root rootDomain fuzzy n toVisit visited).events := by
  intro n
  induction n with
  | zero =>
    intro toVisit visited
    rw [crawlLoop_zero, events_outOfFuel]
    trivial
  | succ n ih =>
    intro toVisit visited
    cases toVisit with
    | nil =>
      rw [crawlLoop_nil, events_finished]
      exact wellFormed_doneEvents w
    | cons url rest =>
      cases hv : visited.contains url with
      | true =>
        rw [crawlLoop_skip hv]
        exact ih rest visited
      | false =>
        cases hf : w.fetch url with
        | ok hrefs =>
          cases hpl : processLinks w root rootDomain fuzzy visited (find_links hrefs) rest with
          | error evs =>
            rw [crawlLoop_ok_abort hv hf hpl, events_aborted]
            have hpe : plEvents (processLinks w root rootDomain fuzzy visited
                (find_links hrefs) rest) = evs := by rw [hpl]; rfl
            have hshape := plEvents_only_resolve_push w root rootDomain fuzzy visited
              (find_links hrefs) rest
            rw [hpe] at hshape
            exact ⟨rfl, wellFormed_shape_end hshape url⟩
          | ok p =>
            obtain ⟨tv2, evs⟩ := p
            rw [crawlLoop_ok hv hf hpl, prepend_events]
            have hpe : plEvents (processLinks w root rootDomain fuzzy visited
                (find_links hrefs) rest) = evs := by rw [hpl]; rfl
            have hshape := plEvents_only_resolve_push w root rootDomain fuzzy visited
              (find_links hrefs) rest
            rw [hpe] at hshape
            rw [List.append_assoc]
            exact ⟨rfl, wellFormed_shape_append hshape
              ⟨rfl, ih tv2 (visited ++ [url])⟩⟩
        | notFound =>
          rw [crawlLoop_notFound hv hf, prepend_events]
          cases hsf : w.sendFails (ChanMsg.found url) with
          | true => exact ⟨rfl, rfl, ih rest (visited ++ [url])⟩
          | false => exact ⟨rfl, rfl, ih rest (visited ++ [url])⟩
        | otherError =>
          rw [crawlLoop_otherError hv hf, events_aborted]
          exact ⟨rfl, trivial⟩

/-- C1 counterexample: in the concrete site `W1`, while processing the page
`https://ex.com/dir/page` the engine resolves the extracted href `sub`
against the root URL `https://ex.com/`, whose serialization differs from the
page's own URL — refuting the claim that each link target is resolved
against the page's own URL. -/
theorem claim_C1_counterexample :
    (some "https://ex.com/dir/page", root1, "sub") ∈
      resolvesWithPages (crawl_and_collect_404s W1 root1 none 10).events none ∧
    root1.str ≠ "https://ex.com/dir/page" := by
  exact ⟨by decide, by decide⟩

/-- C1 (amended): for every page whose fetch succeeds, each extracted link
target is resolved into an absolute URL against the ROOT URL of the crawl —
not against the page's own URL: every resolution event of every run of
`crawl_and_collect_404s` uses the root as its base. -/
theorem claim_C1 :
    ∀ (w : World) (root : Url) (fuzzy : Option String) (fuel : Nat)
      (b : Url) (l : String),
      Event.resolve b l ∈ (crawl_and_collect_404s w root fuzzy fuel).events →
      b = root := by
  intro w root fuzzy fuel b l hmem
  unfold crawl_and_collect_404s at hmem
  cases hdd : root.dom with
  | none =>
    rw [hdd] at hmem
    exact absurd hmem (List.not_mem_nil _)
  | some d =>
    rw [hdd] at hmem
    exact (crawlLoop_resolve w root d fuzzy fuel [root.str] [] b l hmem).1

/-- Witness for C1's amended theorem at the concrete site `W1`. -/
theorem claim_C1_witness :
    Event.resolve root1 "sub" ∈ (crawl_and_collect_404s W1 root1 none 10).events ∧
      root1 = root1 :=
  ⟨by decide, claim_C1 W1 root1 none 10 root1 "sub" (by decide)⟩

/-- C2 counterexample: in the concrete run over `Wd` (a root page carrying
the href `c` twice), the push of the root page's outbound link
`https://ex.com/c` occurs in the event log strictly before the root URL's
own visited-addition — refuting the claimed ordering that a URL is added to
Visited before any of its outbound links is pushed to the frontier. -/
theorem claim_C2_counterexample :
    crawl_and_collect_404s Wd root1 none 10 = CrawlResult.finished EWd ∧
      EWd.indexOf (Event.pushFrontier "https://ex.com/c") <
        EWd.indexOf (Event.addVisited "https://ex.com/") := by
  exact ⟨by decide, by decide⟩

/-- C2 (amended): throughout every run of the crawl engine, each URL is
added to Visited at most once and the addition happens at the end of that
URL's processing — after (not before) its outbound links are pushed to the
frontier — and once a URL is in Visited it is never fetched again and never
pushed to the frontier again: visited-additions are duplicate-free, fetches
are duplicate-free, the log satisfies the visited discipline, and the log
satisfies the processing-window discipline, under which every frontier push
happens after the fetch of the page being processed and before that page's
visited-addition, which closes the page's processing. -/
theorem claim_C2 :
    ∀ (w : World) (root : Url) (fuzzy : Option String) (fuel : Nat),
      (visitedAdds (crawl_and_collect_404s w root fuzzy fuel).events).Nodup ∧
      (fetchedUrls (crawl_and_collect_404s w root fuzzy fuel).events).Nodup ∧
      NoEventAfterVisit (crawl_and_collect_404s w root fuzzy fuel).events ∧
      WellFormedSteps none (crawl_and_collect_404s w root fuzzy fuel).events := by
  intro w root fuzzy fuel
  unfold crawl_and_collect_404s
  cases hdd : root.dom with
  | none =>
    refine ⟨List.nodup_nil, List.nodup_nil, ?_, trivial⟩
    intro l1 u l2 heq
    have : ([] : List Event) = l1 ++ Event.addVisited u :: l2 := heq
    exact absurd this.symm (by simp)
  | some d =>
    exact ⟨(crawlLoop_visitedAdds w root d fuzzy fuel [root.str] []).1,
      (crawlLoop_fetched w root d fuzzy fuel [root.str] []).1,
      crawlLoop_neav w root d fuzzy fuel [root.str] [],
      crawlLoop_wellFormed w root d fuzzy fuel [root.str] []⟩

/-- Witness for C2's amended theorem at the concrete 404-everywhere site. -/
theorem claim_C2_witness :
    (visitedAdds (crawl_and_collect_404s Wnf root1 none 3).events).Nodup :=
  (claim_C2 Wnf root1 none 3).1

/-- C3: in every run of the crawl engine at most one `Done` sentinel is ever
sent and, when sent, it is the last message: any decomposition of the sent
messages around a `Done` has nothing after it. -/
theorem claim_C3 :
    ∀ (w : World) (root : Url) (fuzzy : Option String) (fuel : Nat)
      (l1 l2 : List ChanMsg),
      sentMsgs (crawl_and_collect_404s w root fuzzy fuel).events =
        l1 ++ ChanMsg.done :: l2 → l2 = [] := by
  intro w root fuzzy fuel l1 l2 heq
  unfold crawl_and_collect_404s at heq
  cases hdd : root.dom with
  | none =>
    rw [hdd] at heq
    have h0 : ([] : List ChanMsg) = l1 ++ ChanMsg.done :: l2 := heq
    exact absurd h0.symm (by simp)
  | some d =>
    rw [hdd] at heq
    have heq2 : sentMsgs (crawlLoop w root d fuzzy fuel [root.str] []).events =
        l1 ++ ChanMsg.done :: l2 := heq
    obtain ⟨h1, h2, h3⟩ := crawlLoop_done w root d fuzzy fuel [root.str] []
    cases hR : crawlLoop w root d fuzzy fuel [root.str] [] with
    | finished evs =>
      obtain ⟨M, hM, hnot⟩ := h1 evs hR
      rw [hR] at heq2
      rw [events_finished, hM] at heq2
      rcases split_append heq2 with ⟨l2a, hxs, hl2⟩ | ⟨l1b, hl1, hys⟩
      · exfalso
        apply hnot
        rw [hxs]
        exact List.mem_append.mpr (Or.inr (List.mem_cons_self _ _))
      · cases l1b with
        | nil =>
          injection hys with h1' h2'
          exact h2'.symm
        | cons b bs =>
          rw [List.cons_append] at hys
          injection hys with h1' h2'
          exact absurd h2'.symm (by simp)
    | aborted evs =>
      rw [hR, events_aborted] at heq2
      exfalso
      apply h2 evs hR
      rw [heq2]
      exact List.mem_append.mpr (Or.inr (List.mem_cons_self _ _))
    | outOfFuel evs =>
      rw [hR, events_outOfFuel] at heq2
      exfalso
      apply h3 evs hR
      rw [heq2]
      exact List.mem_append.mpr (Or.inr (List.mem_cons_self _ _))

/-- Witness for C3 at a concrete finished run: the messages decompose as one
`Found` followed by the final `Done`, and the tail past `Done` is empty. -/
theorem claim_C3_witness :
    sentMsgs (crawl_and_collect_404s Wnf root1 none 3).events =
      [ChanMsg.found "https://ex.com/"] ++ ChanMsg.done :: [] ∧
    ([] : List ChanMsg) = [] :=
  ⟨by decide, claim_C3 Wnf root1 none 3 [ChanMsg.found "https://ex.com/"] [] (by decide)⟩

/-- C5: for every discovered link with a resolvable domain, the in-scope
classification holds iff the resolved domain equals the root domain exactly
or the optional fuzzy substring is present and the resolved domain contains
it; and the link is pushed to the frontier (positive per-link decision) iff
it is in scope and its absolute form is not already visited. -/
theorem claim_C5 :
    ∀ (w : World) (root : Url) (rootDomain : String) (fuzzy : Option String)
      (visited : List String) (link : String) (abs : Url) (d : String),
      make_absolute_url w root link = .ok abs → abs.dom = some d →
      ((isInScope rootDomain fuzzy d = true ↔
        (d = rootDomain ∨ ∃ f, fuzzy = some f ∧ containsSubstr d f = true)) ∧
       (linkAction w root rootDomain fuzzy visited link = .ok (some abs.str) ↔
        (isInScope rootDomain fuzzy d = true ∧ visited.contains abs.str = false))) := by
  intro w root rootDomain fuzzy visited link abs d hj hd
  refine ⟨?_, ?_⟩
  · constructor
    · intro h
      rw [isInScope, Bool.or_eq_true] at h
      rcases h with h | h
      · exact Or.inl (beq_iff_eq.mp h).symm
      · cases fuzzy with
        | none => exact absurd h (by simp)
        | some f0 =>
          refine Or.inr ⟨f0, rfl, ?_⟩
          simpa using h
    · intro h
      rw [isInScope, Bool.or_eq_true]
      rcases h with h | ⟨f, hf, hc⟩
      · exact Or.inl (beq_iff_eq.mpr h.symm)
      · subst hf
        exact Or.inr (by simpa using hc)
  · rw [linkAction_dom_eq hj hd]
    by_cases hab : (isInScope rootDomain fuzzy d && !(visited.contains abs.str)) = true
    · rw [if_pos hab]
      rw [Bool.and_eq_true, Bool.not_eq_true'] at hab
      exact ⟨fun _ => ⟨hab.1, hab.2⟩, fun _ => rfl⟩
    · rw [if_neg hab]
      rw [Bool.and_eq_true] at hab
      simp only [Bool.not_eq_true'] at hab
      constructor
      · intro h
        exact absurd h (by simp)
      · rintro ⟨hsc, hcont⟩
        exact absurd ⟨hsc, hcont⟩ hab

/-- Witness for C5 at the concrete site `W1`, root domain `ex.com`, no fuzzy
string, empty visited list. -/
theorem claim_C5_witness :
    make_absolute_url W1 root1 "dir/page" =
      .ok ⟨"https://ex.com/dir/page", some "ex.com"⟩ ∧
    (Url.dom ⟨"https://ex.com/dir/page", some "ex.com"⟩ = some "ex.com") ∧
    ((isInScope "ex.com" none "ex.com" = true ↔
      ("ex.com" = "ex.com" ∨ ∃ f, (none : Option String) = some f ∧
        containsSubstr "ex.com" f = true)) ∧
     (linkAction W1 root1 "ex.com" none [] "dir/page" =
        .ok (some (Url.str ⟨"https://ex.com/dir/page", some "ex.com"⟩)) ↔
      (isInScope "ex.com" none "ex.com" = true ∧
        ([] : List String).contains (Url.str ⟨"https://ex.com/dir/page", some "ex.com"⟩) = false))) :=
  ⟨rfl, rfl,
    claim_C5 W1 root1 "ex.com" none [] "dir/page"
      ⟨"https://ex.com/dir/page", some "ex.com"⟩ "ex.com" rfl rfl⟩

/-- C6: when the fetch of a popped unvisited URL returns 404, the engine
emits `Found(url)` on the channel, adds the URL to the visited list, and the
run continues with the rest of the frontier — identically whether or not the
channel send fails (a failure adds only a log event) — and the URL is never
fetched again later in the run. -/
theorem claim_C6 :
    ∀ (w : World) (root : Url) (rootDomain : String) (fuzzy : Option String)
      (n : Nat) (url : String) (rest visited : List String),
      visited.contains url = false → w.fetch url = .notFound →
      (crawlLoop w root rootDomain fuzzy (n + 1) (url :: rest) visited =
        (crawlLoop w root rootDomain fuzzy n rest (visited ++ [url])).prepend
          (Event.fetch url :: Event.send (ChanMsg.found url) ::
            ((if w.sendFails (ChanMsg.found url) then
                [Event.logSendError (ChanMsg.found url)]
              else []) ++ [Event.addVisited url]))) ∧
      Event.fetch url ∉
        (crawlLoop w root rootDomain fuzzy n rest (visited ++ [url])).events := by
  intro w root rootDomain fuzzy n url rest visited hv hf
  refine ⟨crawlLoop_notFound hv hf, ?_⟩
  exact (crawlLoop_visited_frozen w root rootDomain fuzzy n rest (visited ++ [url]) url
    (List.mem_append.mpr (Or.inr (List.mem_singleton.mpr rfl)))).1

/-- Witness for C6 at the concrete 404-everywhere site. -/
theorem claim_C6_witness :
    ([] : List String).contains "https://ex.com/" = false ∧
    Wnf.fetch "https://ex.com/" = FetchResult.notFound ∧
    Event.fetch "https://ex.com/" ∉
      (crawlLoop Wnf root1 "ex.com" none 2 [] ([] ++ ["https://ex.com/"])).events :=
  ⟨rfl, rfl, (claim_C6 Wnf root1 "ex.com" none 2 "https://ex.com/" [] [] rfl rfl).2⟩

/-- C7: a non-404 fetch failure aborts the run at once with no further
events; a URL-resolution parse error during link processing likewise aborts
the run; a per-link decision errors exactly when the resolution errors; and
an aborted run never sends the `Done` sentinel, while the supervisor, seeing
the channel close without a sentinel, still keeps every reported URL. -/
theorem claim_C7 :
    (∀ (w : World) (root : Url) (rootDomain : String) (fuzzy : Option String)
      (n : Nat) (url : String) (rest visited : List String),
      visited.contains url = false → w.fetch url = .otherError →
      crawlLoop w root rootDomain fuzzy (n + 1) (url :: rest) visited =
        .aborted [Event.fetch url]) ∧
    (∀ (w : World) (root : Url) (rootDomain : String) (fuzzy : Option String)
      (n : Nat) (url : String) (rest visited hrefs : List String) (evs : List Event),
      visited.contains url = false → w.fetch url = .ok hrefs →
      processLinks w root rootDomain fuzzy visited (find_links hrefs) rest =
        .error evs →
      crawlLoop w root rootDomain fuzzy (n + 1) (url :: rest) visited =
        .aborted (Event.fetch url :: evs)) ∧
    (∀ (w : World) (root : Url) (rootDomain : String) (fuzzy : Option String)
      (visited : List String) (link : String) (e : Unit),
      linkAction w root rootDomain fuzzy visited link = .error e ↔
        make_absolute_url w root link = .error e) ∧
    (∀ (w : World) (root : Url) (fuzzy : Option String) (fuel : Nat)
      (evs : List Event),
      crawl_and_collect_404s w root fuzzy fuel = .aborted evs →
      ChanMsg.done ∉ sentMsgs evs ∧
      supervisorAcc (sentMsgs evs) = foundUrls (sentMsgs evs)) := by
  refine ⟨?_, ?_, ?_, ?_⟩
  · intro w root rootDomain fuzzy n url rest visited hv hf
    exact crawlLoop_otherError hv hf
  · intro w root rootDomain fuzzy n url rest visited hrefs evs hv hf hpl
    exact crawlLoop_ok_abort hv hf hpl
  · intro w root rootDomain fuzzy visited link e
    exact linkAction_error_iff w root rootDomain fuzzy visited link e
  · intro w root fuzzy fuel evs heq
    unfold crawl_and_collect_404s at heq
    cases hdd : root.dom with
    | none =>
      rw [hdd] at heq
      have heq2 : CrawlResult.aborted ([] : List Event) = .aborted evs := heq
      injection heq2 with h
      subst h
      exact ⟨List.not_mem_nil _, rfl⟩
    | some d =>
      rw [hdd] at heq
      have heq2 : crawlLoop w root d fuzzy fuel [root.str] [] = .aborted evs := heq
      have hnd := (crawlLoop_done w root d fuzzy fuel [root.str] []).2.1 evs heq2
      exact ⟨hnd, supervisorAcc_no_done _ hnd⟩

/-- Witness for C7 at the concrete always-failing site. -/
theorem claim_C7_witness :
    ([] : List String).contains "a" = false ∧
    Woe.fetch "a" = FetchResult.otherError ∧
    crawlLoop Woe root1 "ex.com" none 1 ["a"] [] =
      CrawlResult.aborted [Event.fetch "a"] :=
  ⟨rfl, rfl, claim_C7.1 Woe root1 "ex.com" none 0 "a" [] [] rfl rfl⟩

/-- C8: an extracted href is denied exactly when it has one of the schemes
`mailto:`, `ftp:`, `tel:` or equals `#` or `javascript:void(0)`; every href
surviving `find_links` is non-denied; every resolution performed by a run
concerns a non-denied href; and every URL a run fetches or pushes is the
root or the resolution of a non-denied href — so denied links never appear
in the frontier and are never fetched. -/
theorem claim_C8 :
    (∀ l, isDeniedLink l = true ↔
      (strStartsWith "mailto:" l = true ∨ strStartsWith "ftp:" l = true ∨
        strStartsWith "tel:" l = true ∨ l = "#" ∨ l = "javascript:void(0)")) ∧
    (∀ (hrefs : List String) (l : String), l ∈ find_links hrefs →
      isDeniedLink l = false) ∧
    (∀ (w : World) (root : Url) (fuzzy : Option String) (fuel : Nat)
      (b : Url) (l : String),
      Event.resolve b l ∈ (crawl_and_collect_404s w root fuzzy fuel).events →
      isDeniedLink l = false) ∧
    (∀ (w : World) (root : Url) (fuzzy : Option String) (fuel : Nat) (u : String),
      (Event.fetch u ∈ (crawl_and_collect_404s w root fuzzy fuel).events ∨
       Event.pushFrontier u ∈ (crawl_and_collect_404s w root fuzzy fuel).events) →
      u = root.str ∨ ∃ link abs, isDeniedLink link = false ∧
        w.join root link = .ok abs ∧ u = abs.str) := by
  refine ⟨?_, ?_, ?_, ?_⟩
  · intro l
    simp [isDeniedLink, deniedProtocols, deniedLinks, or_assoc]
  · intro hrefs l hl
    exact find_links_not_denied hrefs l hl
  · intro w root fuzzy fuel b l hmem
    unfold crawl_and_collect_404s at hmem
    cases hdd : root.dom with
    | none =>
      rw [hdd] at hmem
      exact absurd hmem (List.not_mem_nil _)
    | some d =>
      rw [hdd] at hmem
      exact (crawlLoop_resolve w root d fuzzy fuel [root.str] [] b l hmem).2
  · intro w root fuzzy fuel u hmem
    unfold crawl_and_collect_404s at hmem
    cases hdd : root.dom with
    | none =>
      rw [hdd] at hmem
      rcases hmem with h | h <;> exact absurd h (List.not_mem_nil _)
    | some d =>
      rw [hdd] at hmem
      refine crawlLoop_prov w root d fuzzy fuel [root.str] [] ?_ u hmem
      intro v hv
      rcases List.mem_singleton.mp hv with rfl
      exact Or.inl rfl

/-- Witness for C8 on a concrete non-denied href. -/
theorem claim_C8_witness :
    "a" ∈ find_links ["a"] ∧ isDeniedLink "a" = false :=
  ⟨by decide, claim_C8.2.1 ["a"] "a" (by decide)⟩

/-- C9: a well-formed root URL whose host is not a domain name (for example
an IP address) makes `crawl_and_collect_404s` return an error immediately,
before fetching anything: the run aborts with an empty event log. -/
theorem claim_C9 :
    ∀ (w : World) (root : Url) (fuzzy : Option String) (fuel : Nat),
      root.dom = none →
      crawl_and_collect_404s w root fuzzy fuel = .aborted [] := by
  intro w root fuzzy fuel hd
  unfold crawl_and_collect_404s
  rw [hd]

/-- Witness for C9 at a concrete IP-hosted root URL. -/
theorem claim_C9_witness :
    (Url.dom ⟨"http://93.184.216.34/", none⟩ = none) ∧
    crawl_and_collect_404s Wnf ⟨"http://93.184.216.34/", none⟩ none 5 =
      CrawlResult.aborted [] :=
  ⟨rfl, claim_C9 Wnf ⟨"http://93.184.216.34/", none⟩ none 5 rfl⟩

/-- C10: the push guard checks only the visited list, so the frontier can
hold several copies of a not-yet-visited URL — concretely, a page carrying
the same href twice pushes it twice, and the duplicate reaches the frontier
of the run over `Wd` — yet the pop-time visited check keeps every run's
fetches duplicate-free and its reported URLs duplicate-free. -/
theorem claim_C10 :
    (processLinks Wd root1 "ex.com" none [] ["c", "c"] [] =
      .ok (["https://ex.com/c", "https://ex.com/c"],
        [Event.resolve root1 "c", Event.pushFrontier "https://ex.com/c",
         Event.resolve root1 "c", Event.pushFrontier "https://ex.com/c"])) ∧
    (crawl_and_collect_404s Wd root1 none 10 = CrawlResult.finished EWd ∧
      pushedUrls EWd = ["https://ex.com/c", "https://ex.com/c"]) ∧
    (∀ (w : World) (root : Url) (fuzzy : Option String) (fuel : Nat),
      (fetchedUrls (crawl_and_collect_404s w root fuzzy fuel).events).Nodup ∧
      (foundUrls (sentMsgs (crawl_and_collect_404s w root fuzzy fuel).events)).Nodup) := by
  refine ⟨by rfl, ⟨by decide, by rfl⟩, ?_⟩
  intro w root fuzzy fuel
  unfold crawl_and_collect_404s
  cases hdd : root.dom with
  | none => exact ⟨List.nodup_nil, List.nodup_nil⟩
  | some d =>
    exact ⟨(crawlLoop_fetched w root d fuzzy fuel [root.str] []).1,
      (crawlLoop_found w root d fuzzy fuel [root.str] []).1⟩

/-- Witness for C10's universal part at the duplicate-link site. -/
theorem claim_C10_witness :
    (fetchedUrls (crawl_and_collect_404s Wd root1 none 10).events).Nodup :=
  (claim_C10.2.2 Wd root1 none 10).1
